import Mathlib

/-!
# mapset: the unguarded set `threadUnsafeSet`

A shallow embedding of `threadunsafe.go`.  A set is a Go `map[string]T` from
`Key()` to the stored element.  The map is modelled by its list of entries with
pairwise distinct keys; the order of the list is the order in which a `range`
loop over the map enumerates it, which Go leaves unspecified, so every
statement quantified over all maps covers every enumeration order.
Methods that mutate the receiver return the new map next to their result.
Where aliasing matters the methods are also given on a memory of set variables
and hash tables (`Mem`), with the receiver as an address.  The goroutines of
`Iter` and `Iterator` are step functions on the joint state of the producer and
a consumer of the channel.  Functions of `encoding/json` are parameters.
-/

namespace mapset

/-- The constraint `EqualKeyer` on element types: `Key()` gives the storage
key, `Equal` compares a stored element with a probe.  No law is imposed. -/
class EqualKeyer (T : Type) where
  Key : T → String
  Equal : T → T → Bool

/-- A Go `map[string]T`: the entries in enumeration order, no key twice. -/
structure GoMap (T : Type) where
  entries : List (String × T)
  nodup : (entries.map Prod.fst).Nodup

/-- Dropping the entries under one key keeps the keys distinct. -/
theorem nodup_keys_filter {T : Type} (k : String) (l : List (String × T))
    (h : (l.map Prod.fst).Nodup) :
    ((l.filter (fun p => p.1 != k)).map Prod.fst).Nodup := by
  induction l with
  | nil => simp
  | cons p l ih =>
    rw [List.map_cons, List.nodup_cons] at h
    by_cases hp : p.1 = k
    · simpa [List.filter_cons, hp] using ih h.2
    · have hmem : p.1 ∉ (l.filter (fun q => q.1 != k)).map Prod.fst := by
        intro hin
        apply h.1
        rw [List.mem_map] at hin ⊢
        obtain ⟨q, hq, hqe⟩ := hin
        exact ⟨q, (List.mem_filter.mp hq).1, hqe⟩
      simp only [List.filter_cons, bne_iff_ne, ne_eq, hp, not_false_eq_true, ite_true,
        List.map_cons, List.nodup_cons]
      exact ⟨hmem, ih h.2⟩

/-- After dropping the entries under `k`, no key equals `k`. -/
theorem not_mem_keys_filter {T : Type} (k : String) (l : List (String × T)) :
    k ∉ (l.filter (fun p => p.1 != k)).map Prod.fst := by
  intro hin
  rw [List.mem_map] at hin
  obtain ⟨q, hq, hqe⟩ := hin
  have := (List.mem_filter.mp hq).2
  simp [hqe] at this

namespace GoMap

variable {T : Type}

/-- The result of `make(map[string]T)`: a map with no entry. -/
def make : GoMap T := ⟨[], List.nodup_nil⟩

/-- The keys of a map, in enumeration order. -/
def keys (m : GoMap T) : List String := m.entries.map Prod.fst

/-- The builtin `len(m)`. -/
def len (m : GoMap T) : Nat := m.entries.length

/-- The lookup `v, ok := m[k]`: `some v` when `ok`, `none` otherwise. -/
def get? (m : GoMap T) (k : String) : Option T :=
  (m.entries.find? (fun p => p.1 == k)).map Prod.snd

/-- The builtin `delete(m, k)`. -/
def delete (m : GoMap T) (k : String) : GoMap T :=
  ⟨m.entries.filter (fun p => p.1 != k), nodup_keys_filter k m.entries m.nodup⟩

/-- The assignment `m[k] = v`: any entry under `k` is replaced. -/
def set (m : GoMap T) (k : String) (v : T) : GoMap T :=
  ⟨(k, v) :: m.entries.filter (fun p => p.1 != k),
    by
      rw [List.map_cons, List.nodup_cons]
      exact ⟨not_mem_keys_filter k m.entries, nodup_keys_filter k m.entries m.nodup⟩⟩

end GoMap

/-- The type `threadUnsafeSet[T]`, declared as `map[string]T`. -/
abbrev threadUnsafeSet (T : Type) := GoMap T

/-- The constructor `newThreadUnsafeSet`. -/
def newThreadUnsafeSet {T : Type} : threadUnsafeSet T := GoMap.make

namespace threadUnsafeSet

variable {T : Type} [EqualKeyer T]

/-- The method `Add`: stores `v` under `v.Key()` and reports whether the length
changed.  Returns the map after the call and the boolean. -/
def Add (s : threadUnsafeSet T) (v : T) : threadUnsafeSet T × Bool :=
  let prevLen := s.len
  let s' := s.set (EqualKeyer.Key v) v
  (s', prevLen != s'.len)

/-- The method `Cardinality`. -/
def Cardinality (s : threadUnsafeSet T) : Nat := s.len

/-- The method `Clear`: the receiver becomes a new empty map. -/
def Clear (_s : threadUnsafeSet T) : threadUnsafeSet T := newThreadUnsafeSet

/-- The method `Clone`: every enumerated element is added to a new map. -/
def Clone (s : threadUnsafeSet T) : threadUnsafeSet T :=
  s.entries.foldl (fun clonedSet p => (Add clonedSet p.2).1) newThreadUnsafeSet

/-- The method `Contains` over its variadic probes: the loop returns false at
the first probe whose key is missing or whose stored element is not `Equal`
to it. -/
def Contains (s : threadUnsafeSet T) : List T → Bool
  | [] => true
  | val :: rest =>
    match s.get? (EqualKeyer.Key val) with
    | none => false
    | some vSet => if !EqualKeyer.Equal vSet val then false else Contains s rest

/-- The method `Difference`. -/
def Difference (s other : threadUnsafeSet T) : threadUnsafeSet T :=
  s.entries.foldl
    (fun diff p => if !Contains other [p.2] then (Add diff p.2).1 else diff)
    newThreadUnsafeSet

/-- The method `Equal`: the loop over the receiver returns false at the first
element the other set does not contain. -/
def Equal (s other : threadUnsafeSet T) : Bool :=
  if Cardinality s != Cardinality other then false
  else s.entries.all (fun p => Contains other [p.2])

/-- The method `Intersect`: the loop runs over the receiver when it is strictly
smaller, over the other set otherwise. -/
def Intersect (s other : threadUnsafeSet T) : threadUnsafeSet T :=
  let o := other
  if Cardinality s < Cardinality other then
    s.entries.foldl
      (fun intersection p => if Contains other [p.2] then (Add intersection p.2).1
        else intersection)
      newThreadUnsafeSet
  else
    o.entries.foldl
      (fun intersection p => if Contains s [p.2] then (Add intersection p.2).1
        else intersection)
      newThreadUnsafeSet

/-- The method `IsSubset`. -/
def IsSubset (s other : threadUnsafeSet T) : Bool :=
  if Cardinality s > Cardinality other then false
  else s.entries.all (fun p => Contains other [p.2])

/-- The method `IsSuperset`. -/
def IsSuperset (s other : threadUnsafeSet T) : Bool := IsSubset other s

/-- The method `IsProperSubset`. -/
def IsProperSubset (s other : threadUnsafeSet T) : Bool :=
  IsSubset s other && !Equal s other

/-- The method `IsProperSuperset`. -/
def IsProperSuperset (s other : threadUnsafeSet T) : Bool :=
  IsSuperset s other && !Equal s other

/-- The method `Pop`: the first entry the `range` loop yields is deleted and
returned; `none` stands for `ok = false` (the loop body never ran). -/
def Pop (s : threadUnsafeSet T) : threadUnsafeSet T × Option T :=
  match s.entries with
  | [] => (s, none)
  | (key, item) :: _ => (s.delete key, some item)

/-- The method `Remove`. -/
def Remove (s : threadUnsafeSet T) (v : T) : threadUnsafeSet T :=
  s.delete (EqualKeyer.Key v)

/-- The method `ToSlice`. -/
def ToSlice (s : threadUnsafeSet T) : List T :=
  s.entries.foldl (fun elems p => elems ++ [p.2]) []

/-- The method `Union`: the receiver is enumerated first, then the other set. -/
def Union (s other : threadUnsafeSet T) : threadUnsafeSet T :=
  let o := other
  let unionedSet := s.entries.foldl (fun u p => (Add u p.2).1) newThreadUnsafeSet
  o.entries.foldl (fun u p => (Add u p.2).1) unionedSet

/-- The method `SymmetricDifference`. -/
def SymmetricDifference (s other : threadUnsafeSet T) : threadUnsafeSet T :=
  let a := Difference s other
  let b := Difference other s
  Union a b

/-- The method `UnmarshalJSON`.  The decoder of `encoding/json` (set to
`UseNumber`) is a parameter: it maps the bytes to the decoded slice `i` or to
an error.  The result is the receiver after the call and the returned error,
`none` for `nil`. -/
def UnmarshalJSON {ε : Type} (decode : List Nat → Except ε (List T))
    (s : threadUnsafeSet T) (b : List Nat) : threadUnsafeSet T × Option ε :=
  match decode b with
  | .error err => (s, some err)
  | .ok i => (i.foldl (fun s v => (Add s v).1) s, none)

/-- Every entry is stored under the key of its element.  All methods insert
through `Add`, so every set built through them has this property. -/
def KeyConsistent (s : threadUnsafeSet T) : Prop :=
  ∀ p ∈ s.entries, p.1 = EqualKeyer.Key p.2

instance (s : threadUnsafeSet T) : Decidable (KeyConsistent s) :=
  inferInstanceAs (Decidable (∀ p ∈ s.entries, p.1 = EqualKeyer.Key p.2))

/-- The stored elements, in enumeration order. -/
def elems (s : threadUnsafeSet T) : List T := s.entries.map Prod.snd

/-- The sets a program can hold: the empty set, the receiver after each
mutating method, and the results of the methods that return a set.  A map can
be enumerated in any order, so every reordering of the entries of a reachable
set is reachable. -/
inductive Reachable : threadUnsafeSet T → Prop
  | empty : Reachable newThreadUnsafeSet
  | add (s : threadUnsafeSet T) (v : T) : Reachable s → Reachable (Add s v).1
  | remove (s : threadUnsafeSet T) (v : T) : Reachable s → Reachable (Remove s v)
  | pop (s : threadUnsafeSet T) : Reachable s → Reachable (Pop s).1
  | clear (s : threadUnsafeSet T) : Reachable s → Reachable (Clear s)
  | unmarshal {ε : Type} (decode : List Nat → Except ε (List T)) (s : threadUnsafeSet T)
      (b : List Nat) : Reachable s → Reachable (UnmarshalJSON decode s b).1
  | clone (s : threadUnsafeSet T) : Reachable s → Reachable (Clone s)
  | union (s t : threadUnsafeSet T) : Reachable s → Reachable t → Reachable (Union s t)
  | intersect (s t : threadUnsafeSet T) : Reachable s → Reachable t →
      Reachable (Intersect s t)
  | difference (s t : threadUnsafeSet T) : Reachable s → Reachable t →
      Reachable (Difference s t)
  | symmetricDifference (s t : threadUnsafeSet T) : Reachable s → Reachable t →
      Reachable (SymmetricDifference s t)
  | reorder (s s' : threadUnsafeSet T) : Reachable s → s.entries.Perm s'.entries →
      Reachable s'

end threadUnsafeSet

/-! ## Iteration over channels

`Iter` and `Iterator` start a goroutine that sends the enumerated elements on
an unbuffered channel and then closes it.  A send on an unbuffered channel
completes together with the receive of the consumer, so the goroutine and a
consumer that ranges over the channel advance in joint steps. -/

/-- The goroutine of `Iter` and a consumer that drains the channel: the
elements the `range` loop has yet to send, whether `close(ch)` has run, and
what the consumer has received so far. -/
structure IterState (T : Type) where
  pending : List T
  closed : Bool
  received : List T

/-- The goroutine of `Iterator` and a consumer that ranges over `C`: as for
`Iter`, and whether the stop signal has been given. -/
structure IteratorState (T : Type) where
  pending : List T
  stopped : Bool
  closed : Bool
  received : List T

namespace threadUnsafeSet

variable {T : Type} [EqualKeyer T]

/-- The method `Iter`: the state when the goroutine starts its `range` loop
over the set. -/
def Iter (s : threadUnsafeSet T) : IterState T :=
  { pending := elems s, closed := false, received := [] }

/-- One step of the goroutine of `Iter`: `ch <- elem` hands the next element
to the consumer; after the loop, `close(ch)`; nothing after that. -/
def iterStep (st : IterState T) : Option (IterState T) :=
  if st.closed = true then none
  else
    match st.pending with
    | elem :: rest => some { pending := rest, closed := false, received := st.received ++ [elem] }
    | [] => some { pending := [], closed := true, received := st.received }

/-- The state after at most `fuel` steps. -/
def iterRun : Nat → IterState T → IterState T
  | 0, st => st
  | fuel + 1, st =>
    match iterStep st with
    | none => st
    | some st' => iterRun fuel st'

/-- The method `Iterator`: the state when the goroutine starts its `range`
loop over the set, with no stop signal given. -/
def Iterator (s : threadUnsafeSet T) : IteratorState T :=
  { pending := elems s, stopped := false, closed := false, received := [] }

/-- Modelled from the spec: the method `Stop` of the iterator handle, whose
source file is not among the sources; it gives the stop signal, after which
the `select` of the producer may take its stop case. -/
def IteratorState.Stop (st : IteratorState T) : IteratorState T :=
  { st with stopped := true }

/-- One step of the goroutine of `Iterator` against a consumer that calls
`Stop()` when it receives an element satisfying `target`.  After the loop the
goroutine closes the channel.  In the `select`, the stop case is ready once
the signal has been given and the send case is ready because the consumer is
receiving; `pickStop` is the choice of `select` when both are ready.  The stop
case leaves the loop and closes the channel. -/
def iteratorStep (target : T → Bool) (pickStop : Bool) (st : IteratorState T) :
    Option (IteratorState T) :=
  if st.closed = true then none
  else
    match st.pending with
    | [] => some { st with closed := true }
    | elem :: rest =>
      if (st.stopped && pickStop) = true then some { st with closed := true }
      else
        let got : IteratorState T := { st with pending := rest, received := st.received ++ [elem] }
        some (if target elem = true then IteratorState.Stop got else got)

/-- The state after at most `fuel` steps, the choice of `select` at step `i`
being `sched i`. -/
def iteratorRun (target : T → Bool) (sched : Nat → Bool) :
    Nat → Nat → IteratorState T → IteratorState T
  | 0, _, st => st
  | fuel + 1, i, st =>
    match iteratorStep target (sched i) st with
    | none => st
    | some st' => iteratorRun target sched fuel (i + 1) st'

/-- Modelled from the spec: concurrent calls of `Add` on the guarded set, whose
source file is not among the sources.  Every call holds the exclusive lock for
its full duration, so the calls take effect one after the other, in the order
in which the tasks get the lock; `order` lists the added elements in that
order. -/
def concurrentAdds (order : List T) : threadUnsafeSet T :=
  order.foldl (fun s v => (Add s v).1) newThreadUnsafeSet

end threadUnsafeSet

/-! ## Memory: sets behind pointers

The methods have receiver `s *threadUnsafeSet[T]`: the address of a variable
that holds a reference to a hash table.  `Add`, `Remove` and `Pop` change that
table in place; `Clear` makes the variable refer to a new table; `Clone`
returns the address of a new variable with a new table. -/

/-- Hash tables by address, and variables of type `threadUnsafeSet[T]` by
address; a variable holds the address of a table.  Addresses below the two
marks are allocated. -/
structure Mem (T : Type) where
  table : Nat → GoMap T
  tableTop : Nat
  cell : Nat → Nat
  cellTop : Nat

namespace Mem

variable {T : Type} [EqualKeyer T]

/-- The map `*s`. -/
def load (h : Mem T) (s : Nat) : GoMap T := h.table (h.cell s)

/-- A change in place of the table that `*s` refers to. -/
def write (h : Mem T) (s : Nat) (m : GoMap T) : Mem T :=
  { h with table := Function.update h.table (h.cell s) m }

/-- The address `s` is an allocated variable that refers to an allocated table. -/
def Live (h : Mem T) (s : Nat) : Prop := s < h.cellTop ∧ h.cell s < h.tableTop

instance (h : Mem T) (s : Nat) : Decidable (Live h s) :=
  inferInstanceAs (Decidable (s < h.cellTop ∧ h.cell s < h.tableTop))

/-- A new variable initialised with `newThreadUnsafeSet()`, and its address. -/
def newSet (h : Mem T) : Mem T × Nat :=
  ({ table := Function.update h.table h.tableTop GoMap.make
     tableTop := h.tableTop + 1
     cell := Function.update h.cell h.cellTop h.tableTop
     cellTop := h.cellTop + 1 }, h.cellTop)

/-- The call `s.Add(v)`. -/
def Add (h : Mem T) (s : Nat) (v : T) : Mem T × Bool :=
  let r := threadUnsafeSet.Add (h.load s) v
  (h.write s r.1, r.2)

/-- The call `s.Remove(v)`. -/
def Remove (h : Mem T) (s : Nat) (v : T) : Mem T :=
  h.write s (threadUnsafeSet.Remove (h.load s) v)

/-- The call `s.Pop()`. -/
def Pop (h : Mem T) (s : Nat) : Mem T × Option T :=
  let r := threadUnsafeSet.Pop (h.load s)
  (h.write s r.1, r.2)

/-- The call `s.Clear()`: the assignment `*s = newThreadUnsafeSet[T]()`. -/
def Clear (h : Mem T) (s : Nat) : Mem T :=
  { table := Function.update h.table h.tableTop GoMap.make
    tableTop := h.tableTop + 1
    cell := Function.update h.cell s h.tableTop
    cellTop := h.cellTop }

/-- The call `s.Clone()`: a new variable `clonedSet`, one `clonedSet.Add` for
every element enumerated from `*s`, and the address of `clonedSet`. -/
def Clone (h : Mem T) (s : Nat) : Mem T × Nat :=
  let r := h.newSet
  let clonedSet := r.2
  ((h.load s).entries.foldl (fun m p => (Add m clonedSet p.2).1) r.1, clonedSet)

/-- The call `s.ToSlice()`: the memory after the call and the slice. -/
def ToSlice (h : Mem T) (s : Nat) : Mem T × List T :=
  (h, threadUnsafeSet.ToSlice (h.load s))

end Mem

/-- The mutating calls of the set interface. -/
inductive Mutation (T : Type) where
  | add (v : T)
  | remove (v : T)
  | pop
  | clear

/-- The memory after one mutating call on the set at address `s`. -/
def Mem.mutate {T : Type} [EqualKeyer T] (h : Mem T) (s : Nat) : Mutation T → Mem T
  | .add v => (Mem.Add h s v).1
  | .remove v => Mem.Remove h s v
  | .pop => (Mem.Pop h s).1
  | .clear => Mem.Clear h s

/-- The memory after a list of mutating calls, in order, on the set at
address `s`. -/
def Mem.mutateAll {T : Type} [EqualKeyer T] (h : Mem T) (s : Nat) (μs : List (Mutation T)) :
    Mem T :=
  μs.foldl (fun m μ => Mem.mutate m s μ) h

/-- Two live variables that refer to different tables. -/
def Mem.Apart {T : Type} (h : Mem T) (a b : Nat) : Prop :=
  h.Live a ∧ h.Live b ∧ a ≠ b ∧ h.cell a ≠ h.cell b

namespace Mem

variable {T : Type} [EqualKeyer T]

/-- The call `s.Difference(other)`: a new variable `diff`, one `diff.Add` for
every element enumerated from `*s` that `other` does not contain, and the
address of `diff`. -/
def Difference (h : Mem T) (s other : Nat) : Mem T × Nat :=
  let r := h.newSet
  let diff := r.2
  ((r.1.load s).entries.foldl
    (fun m p => if (!threadUnsafeSet.Contains (m.load other) [p.2]) = true
      then (Add m diff p.2).1 else m) r.1, diff)

/-- The call `s.Intersect(other)`. -/
def Intersect (h : Mem T) (s other : Nat) : Mem T × Nat :=
  let o := other
  let r := h.newSet
  let intersection := r.2
  if threadUnsafeSet.Cardinality (r.1.load s) < threadUnsafeSet.Cardinality (r.1.load other) then
    ((r.1.load s).entries.foldl
      (fun m p => if threadUnsafeSet.Contains (m.load other) [p.2] = true
        then (Add m intersection p.2).1 else m) r.1, intersection)
  else
    ((r.1.load o).entries.foldl
      (fun m p => if threadUnsafeSet.Contains (m.load s) [p.2] = true
        then (Add m intersection p.2).1 else m) r.1, intersection)

/-- The call `s.Union(other)`: the second loop enumerates `*o` as it is after
the first loop. -/
def Union (h : Mem T) (s other : Nat) : Mem T × Nat :=
  let o := other
  let r := h.newSet
  let unionedSet := r.2
  let h1 := (r.1.load s).entries.foldl (fun m p => (Add m unionedSet p.2).1) r.1
  let h2 := (h1.load o).entries.foldl (fun m p => (Add m unionedSet p.2).1) h1
  (h2, unionedSet)

/-- The call `s.SymmetricDifference(other)`. -/
def SymmetricDifference (h : Mem T) (s other : Nat) : Mem T × Nat :=
  let a := Difference h s other
  let b := Difference a.1 other s
  Union b.1 a.2 b.2

end Mem

namespace Mem

variable {T : Type} [EqualKeyer T]

end Mem

/-- The four methods that compute a new set from two sets. -/
inductive SetOp where
  | union
  | intersect
  | difference
  | symmetricDifference

/-- The call `s.Op(other)` on the memory: the memory after the call and the
address of the returned set. -/
def Mem.binary {T : Type} [EqualKeyer T] : SetOp → Mem T → Nat → Nat → Mem T × Nat
  | .union => Mem.Union
  | .intersect => Mem.Intersect
  | .difference => Mem.Difference
  | .symmetricDifference => Mem.SymmetricDifference

/-- The set `s.Op(other)` computed from the two maps. -/
def threadUnsafeSet.binary {T : Type} [EqualKeyer T] :
    SetOp → threadUnsafeSet T → threadUnsafeSet T → threadUnsafeSet T
  | .union => threadUnsafeSet.Union
  | .intersect => threadUnsafeSet.Intersect
  | .difference => threadUnsafeSet.Difference
  | .symmetricDifference => threadUnsafeSet.SymmetricDifference

/-- The memory `h'` extends `h` by allocation only, and `r` is a variable of
`h'` allocated after `h` with a table allocated after `h`. -/
def Mem.Fresh {T : Type} (h h' : Mem T) (r : Nat) : Prop :=
  (∀ p, h.Live p → h'.cell p = h.cell p ∧ h'.load p = h.load p) ∧
  h'.Live r ∧ h.cellTop ≤ r ∧ h.tableTop ≤ h'.cell r ∧
  h.cellTop ≤ h'.cellTop ∧ h.tableTop ≤ h'.tableTop

/-! ## Element types -/

/-- The element type `String` of the package (`type String string`).  A Go
string is a sequence of bytes: `val` holds one character per byte, the
character whose code is the byte, so that a text of ASCII characters is
written as itself and the one-byte string `"\xff"` is the character 255. -/
structure GoString where
  val : String
  deriving DecidableEq

/-- The methods `Equal` and `Key` of `String`: equality of the strings, and the
string itself. -/
instance : EqualKeyer GoString where
  Key i := i.val
  Equal i j := i == j

/-- The element type `*yourType` of `Test_ExampleIterator`: the address of a
`yourType` value and the `name` field of that value. -/
structure yourTypePtr where
  addr : Nat
  name : String
  deriving DecidableEq

/-- The methods of `yourType` called through a `*yourType` element.  `Key`
returns the name.  `Equal` receives the probe boxed as `any` with dynamic type
`*yourType`, so its assertion `jAny.(yourType)` fails and it returns false. -/
instance : EqualKeyer yourTypePtr where
  Key i := i.name
  Equal _ _ := false

/-- The elements of a set over the interface type `EqualKeyer` that holds
`yourType` values and `*yourType` pointers. -/
inductive yourTypeAny where
  | value (name : String)
  | pointer (addr : Nat) (name : String)
  deriving DecidableEq

/-- The `name` field of the `yourType` value an element is or points to. -/
def yourTypeAny.name : yourTypeAny → String
  | .value n => n
  | .pointer _ n => n

/-- The methods of `yourType` on these elements.  The receiver is the value
itself or the value pointed to.  `Equal` asserts `jAny.(yourType)`: a pointer
probe fails the assertion, a value probe is compared with `==`. -/
instance : EqualKeyer yourTypeAny where
  Key i := i.name
  Equal i j :=
    match j with
    | .value n => i.name == n
    | .pointer _ _ => false

/-- A client element type keyed by one field only: `Key` returns the name,
`Equal` compares the whole value, so unequal elements can share a key. -/
structure Versioned where
  name : String
  rev : Nat
  deriving DecidableEq

instance : EqualKeyer Versioned where
  Key i := i.name
  Equal i j := i == j

/-- A client element type whose `Equal` is one-directional: only a master
record vouches for a probe of the same name. -/
structure Tagged where
  name : String
  master : Bool
  deriving DecidableEq

instance : EqualKeyer Tagged where
  Key i := i.name
  Equal i j := i.master && i.name == j.name

/-! ## Sample sets -/

/-- Modelled from the spec: the constructor `NewThreadUnsafeSet`, whose source
file is not among the sources; the set is created from a variadic list of
elements, one `Add` each in order, so that of two elements with one key the
last one wins. -/
def NewThreadUnsafeSet {T : Type} [EqualKeyer T] (l : List T) : threadUnsafeSet T :=
  l.foldl (fun s v => (threadUnsafeSet.Add s v).1) newThreadUnsafeSet

/-- A set of two `String` elements. -/
def sampleStrings : threadUnsafeSet GoString := NewThreadUnsafeSet [⟨"1"⟩, ⟨"test"⟩]

/-- The same two `String` elements added in the other order. -/
def sampleStringsSwapped : threadUnsafeSet GoString := NewThreadUnsafeSet [⟨"test"⟩, ⟨"1"⟩]

/-- A set of one `String` element. -/
def sampleString : threadUnsafeSet GoString := NewThreadUnsafeSet [⟨"test"⟩]

/-- A set of one `*yourType` element. -/
def sampleBob : threadUnsafeSet yourTypePtr := NewThreadUnsafeSet [⟨1, "Bob"⟩]

/-- A set holding revision 1 of the record named `a`. -/
def sampleRev1 : threadUnsafeSet Versioned := NewThreadUnsafeSet [⟨"a", 1⟩]

/-- A set holding revision 2 of the record named `a`. -/
def sampleRev2 : threadUnsafeSet Versioned := NewThreadUnsafeSet [⟨"a", 2⟩]

/-- A set holding the plain record named `a`. -/
def samplePlain : threadUnsafeSet Tagged := NewThreadUnsafeSet [⟨"a", false⟩]

/-- A set holding the master records named `a` and `b`. -/
def sampleMasters : threadUnsafeSet Tagged := NewThreadUnsafeSet [⟨"a", true⟩, ⟨"b", true⟩]

/-- A set holding the `yourType` value named `a`. -/
def sampleValue : threadUnsafeSet yourTypeAny := NewThreadUnsafeSet [.value "a"]

/-- A set holding a pointer to a `yourType` value named `a`. -/
def samplePointer : threadUnsafeSet yourTypeAny := NewThreadUnsafeSet [.pointer 1 "a"]

/-- The states of the sample decoder. -/
inductive DecState where
  | start
  | first
  | inString (cur : List Nat)
  | escape (cur : List Nat)
  | hex (cur : List Nat) (digits : List Nat)
  | afterItem
  | afterComma

/-- The value of a hexadecimal digit given by its byte. -/
def hexValue (c : Nat) : Option Nat :=
  if 48 ≤ c ∧ c ≤ 57 then some (c - 48)
  else if 97 ≤ c ∧ c ≤ 102 then some (c - 87)
  else if 65 ≤ c ∧ c ≤ 70 then some (c - 55)
  else none

/-- The UTF-8 bytes of a code point below 65536. -/
def utf8Bytes (cp : Nat) : List Nat :=
  if cp < 128 then [cp]
  else if cp < 2048 then [192 + cp / 64, 128 + cp % 64]
  else [224 + cp / 4096, 128 + cp / 64 % 64, 128 + cp % 64]

/-- A decoder for the samples, standing for `json.Decoder.Decode` into a slice
of `String`: it accepts an array of double-quoted texts, with blanks allowed
between the tokens.  Inside a text an ASCII byte from 32 on stands for itself,
a backslash followed by `u` and four hexadecimal digits stands for the UTF-8
bytes of that code point, and a control byte is an error; bytes from 128 on,
the other escapes and the surrogate code points are outside the samples and
give an error here.  Byte 32 is the blank, 34 the double quote, 44 the comma,
92 the backslash, 117 the letter `u`, 91 and 93 the square brackets. -/
def sampleDecodeFrom : DecState → List GoString → List Nat → Except String (List GoString)
  | _, _, [] => .error "unexpected EOF"
  | .start, acc, c :: cs =>
    if c = 32 then sampleDecodeFrom .start acc cs
    else if c = 91 then sampleDecodeFrom .first acc cs
    else .error "invalid character"
  | .first, acc, c :: cs =>
    if c = 32 then sampleDecodeFrom .first acc cs
    else if c = 93 then .ok acc
    else if c = 34 then sampleDecodeFrom (.inString []) acc cs
    else .error "invalid character"
  | .inString cur, acc, c :: cs =>
    if c = 34 then sampleDecodeFrom .afterItem (acc ++ [⟨String.mk (cur.map Char.ofNat)⟩]) cs
    else if c = 92 then sampleDecodeFrom (.escape cur) acc cs
    else if c < 32 then .error "invalid character"
    else if 128 ≤ c then .error "outside the sample decoder"
    else sampleDecodeFrom (.inString (cur ++ [c])) acc cs
  | .escape cur, acc, c :: cs =>
    if c = 117 then sampleDecodeFrom (.hex cur []) acc cs
    else .error "outside the sample decoder"
  | .hex cur digits, acc, c :: cs =>
    match hexValue c with
    | none => .error "invalid character"
    | some d =>
      if digits.length < 3 then sampleDecodeFrom (.hex cur (digits ++ [d])) acc cs
      else if 55296 ≤ (digits ++ [d]).foldl (fun n x => 16 * n + x) 0 ∧
          (digits ++ [d]).foldl (fun n x => 16 * n + x) 0 < 57344 then
        .error "outside the sample decoder"
      else
        sampleDecodeFrom
          (.inString (cur ++ utf8Bytes ((digits ++ [d]).foldl (fun n x => 16 * n + x) 0)))
          acc cs
  | .afterItem, acc, c :: cs =>
    if c = 32 then sampleDecodeFrom .afterItem acc cs
    else if c = 93 then .ok acc
    else if c = 44 then sampleDecodeFrom .afterComma acc cs
    else .error "invalid character"
  | .afterComma, acc, c :: cs =>
    if c = 32 then sampleDecodeFrom .afterComma acc cs
    else if c = 34 then sampleDecodeFrom (.inString []) acc cs
    else .error "invalid character"

/-- The sample decoder from its start state. -/
def sampleDecode (b : List Nat) : Except String (List GoString) :=
  sampleDecodeFrom .start [] b

/-- A memory with two set variables: address 0 holds `sampleStrings`, address
1 holds `sampleString`, each with its own table. -/
def sampleMemTwo : Mem GoString :=
  { table := fun a => if a = 0 then sampleStrings else sampleString
    tableTop := 2
    cell := fun p => if p = 0 then 0 else 1
    cellTop := 2 }

/-- Two `*yourType` elements with distinct keys, one for each of two tasks. -/
def sampleBobAlise : List yourTypePtr := [⟨1, "Bob"⟩, ⟨2, "Alise"⟩]

/-- Two `String` elements with distinct keys, one for each of two tasks. -/
def sampleTasks : List GoString := [⟨"1"⟩, ⟨"test"⟩]

/-- The bytes of the JSON text `["new"]`. -/
def sampleJSON : List Nat := [91, 34, 110, 101, 119, 34, 93]

/-- The bytes of the truncated JSON text `["new`. -/
def sampleTruncatedJSON : List Nat := [91, 34, 110, 101, 119]

/-- A memory with one set variable, at address 0, holding `sampleStrings`. -/
def sampleMem : Mem GoString :=
  { table := fun _ => sampleStrings, tableTop := 1, cell := fun _ => 0, cellTop := 1 }

namespace GoMap
variable {T : Type}

theorem ext_entries {m m' : GoMap T} (h : m.entries = m'.entries) : m = m' := by
  cases m; cases m'; cases h; rfl

theorem find?_key_of_mem (l : List (String × T)) (hl : (l.map Prod.fst).Nodup)
    (k : String) (v : T) (h : (k, v) ∈ l) :
    l.find? (fun p => p.1 == k) = some (k, v) := by
  induction l with
  | nil => simp at h
  | cons p l ih =>
    rw [List.map_cons, List.nodup_cons] at hl
    rcases List.mem_cons.mp h with rfl | hmem
    · simp
    · have hne : p.1 ≠ k := by
        intro hpk
        apply hl.1
        rw [hpk]
        exact List.mem_map.mpr ⟨(k, v), hmem, rfl⟩
      rw [List.find?_cons_of_neg]
      · exact ih hl.2 hmem
      · simpa using hne

theorem get?_eq_some_iff (m : GoMap T) (k : String) (v : T) :
    m.get? k = some v ↔ (k, v) ∈ m.entries := by
  constructor
  · intro h
    unfold get? at h
    rw [Option.map_eq_some'] at h
    obtain ⟨p, hp, hpv⟩ := h
    have hk := List.find?_some hp
    have hmem := List.mem_of_find?_eq_some hp
    have : p = (k, v) := by
      cases p
      simp at hk hpv
      simp [hk, hpv]
    rw [← this]
    exact hmem
  · intro h
    unfold get?
    rw [find?_key_of_mem m.entries m.nodup k v h]
    rfl

theorem get?_isSome_iff (m : GoMap T) (k : String) :
    (m.get? k).isSome = true ↔ k ∈ m.keys := by
  constructor
  · intro h
    obtain ⟨v, hv⟩ := Option.isSome_iff_exists.mp h
    exact List.mem_map.mpr ⟨(k, v), (get?_eq_some_iff m k v).mp hv, rfl⟩
  · intro h
    obtain ⟨p, hp, hpk⟩ := List.mem_map.mp h
    have : m.get? k = some p.2 := (get?_eq_some_iff m k p.2).mpr (by rw [← hpk]; exact hp)
    rw [this]
    rfl

theorem get?_eq_none_iff (m : GoMap T) (k : String) :
    m.get? k = none ↔ k ∉ m.keys := by
  rw [← get?_isSome_iff]
  cases m.get? k <;> simp

theorem get?_make (k : String) : (make : GoMap T).get? k = none := rfl

theorem get?_set_self (m : GoMap T) (k : String) (v : T) : (m.set k v).get? k = some v := by
  simp [get?, set]

theorem get?_set_ne (m : GoMap T) (k k' : String) (v : T) (h : k' ≠ k) :
    (m.set k v).get? k' = m.get? k' := by
  have hkk : (k == k') = false := by simpa using fun e => h e.symm
  cases hg : m.get? k' with
  | none =>
    rw [get?_eq_none_iff] at hg ⊢
    intro hin
    apply hg
    obtain ⟨p, hp, hpk⟩ := List.mem_map.mp hin
    simp only [set, List.mem_cons, List.mem_filter] at hp
    rcases hp with rfl | hp
    · exact absurd hpk.symm h
    · exact List.mem_map.mpr ⟨p, hp.1, hpk⟩
  | some x =>
    rw [get?_eq_some_iff] at hg ⊢
    simp only [set, List.mem_cons, List.mem_filter]
    right
    exact ⟨hg, by simpa using h⟩

theorem get?_delete_self (m : GoMap T) (k : String) : (m.delete k).get? k = none := by
  rw [get?_eq_none_iff]
  exact not_mem_keys_filter k m.entries

theorem get?_delete_ne (m : GoMap T) (k k' : String) (h : k' ≠ k) :
    (m.delete k).get? k' = m.get? k' := by
  cases hg : m.get? k' with
  | none =>
    rw [get?_eq_none_iff] at hg ⊢
    intro hin
    apply hg
    obtain ⟨p, hp, hpk⟩ := List.mem_map.mp hin
    simp only [delete, List.mem_filter] at hp
    exact List.mem_map.mpr ⟨p, hp.1, hpk⟩
  | some x =>
    rw [get?_eq_some_iff] at hg ⊢
    simp only [delete, List.mem_filter]
    exact ⟨hg, by simpa using h⟩

theorem length_filter_key (l : List (String × T)) (hl : (l.map Prod.fst).Nodup) (k : String) :
    (l.filter (fun p => p.1 != k)).length + (if k ∈ l.map Prod.fst then 1 else 0) = l.length := by
  induction l with
  | nil => simp
  | cons p l ih =>
    rw [List.map_cons, List.nodup_cons] at hl
    have ih' := ih hl.2
    by_cases hp : p.1 = k
    · have hk : k ∉ l.map Prod.fst := by rw [← hp]; exact hl.1
      rw [if_neg hk] at ih'
      simp only [List.filter_cons, hp, bne_self_eq_false, Bool.false_eq_true, if_false,
        List.map_cons, List.mem_cons, true_or, if_true, List.length_cons]
      omega
    · have hpk : ¬ k = p.1 := fun e => hp e.symm
      simp only [List.filter_cons, bne_iff_ne, ne_eq, hp, not_false_eq_true, if_true,
        List.map_cons, List.mem_cons, hpk, false_or, List.length_cons]
      split_ifs at ih' ⊢ <;> omega

theorem len_delete (m : GoMap T) (k : String) :
    (m.delete k).len + (if k ∈ m.keys then 1 else 0) = m.len :=
  length_filter_key m.entries m.nodup k

theorem len_set (m : GoMap T) (k : String) (v : T) :
    (m.set k v).len + (if k ∈ m.keys then 1 else 0) = m.len + 1 := by
  have := length_filter_key m.entries m.nodup k
  simp only [len, set, List.length_cons, keys]
  omega

theorem delete_of_not_mem (m : GoMap T) (k : String) (h : k ∉ m.keys) : m.delete k = m := by
  apply ext_entries
  simp only [delete]
  rw [List.filter_eq_self]
  intro p hp
  have : p.1 ≠ k := fun e => h (List.mem_map.mpr ⟨p, hp, e⟩)
  simpa using this

theorem len_le_of_keys (m m' : GoMap T) (h : ∀ k, k ∈ m.keys → k ∈ m'.keys) :
    m.len ≤ m'.len := by
  have := (List.subperm_of_subset m.nodup h).length_le
  simpa [len, keys] using this

theorem len_eq_of_get? (m m' : GoMap T)
    (h : ∀ k, (m.get? k).isSome = (m'.get? k).isSome) : m.len = m'.len := by
  apply Nat.le_antisymm
  · apply GoMap.len_le_of_keys
    intro k hk
    rw [← GoMap.get?_isSome_iff] at hk ⊢
    rw [← h]; exact hk
  · apply GoMap.len_le_of_keys
    intro k hk
    rw [← GoMap.get?_isSome_iff] at hk ⊢
    rw [h]; exact hk

end GoMap

/-! ## The single-set methods -/

namespace threadUnsafeSet

section

variable {T : Type} [EqualKeyer T]

theorem contains_cons (s : threadUnsafeSet T) (v : T) (vs : List T) :
    Contains s (v :: vs) = true ↔
      (∃ e, s.get? (EqualKeyer.Key v) = some e ∧ EqualKeyer.Equal e v = true) ∧
        Contains s vs = true := by
  rw [Contains]
  cases h : s.get? (EqualKeyer.Key v) with
  | none => simp
  | some e =>
    cases he : EqualKeyer.Equal e v <;> simp [he]

theorem contains_single (s : threadUnsafeSet T) (v : T) :
    Contains s [v] = true ↔
      ∃ e, s.get? (EqualKeyer.Key v) = some e ∧ EqualKeyer.Equal e v = true := by
  rw [contains_cons]
  simp [Contains]

theorem contains_iff_forall (s : threadUnsafeSet T) (vs : List T) :
    Contains s vs = true ↔
      ∀ v ∈ vs, ∃ e, s.get? (EqualKeyer.Key v) = some e ∧ EqualKeyer.Equal e v = true := by
  induction vs with
  | nil => simp [Contains]
  | cons v vs ih => rw [contains_cons, ih]; simp

theorem add_fst (s : threadUnsafeSet T) (v : T) : (Add s v).1 = s.set (EqualKeyer.Key v) v := rfl

theorem add_snd (s : threadUnsafeSet T) (v : T) :
    (Add s v).2 = true ↔ s.get? (EqualKeyer.Key v) = none := by
  have hlen := GoMap.len_set s (EqualKeyer.Key v) v
  rw [GoMap.get?_eq_none_iff]
  simp only [Add, bne_iff_ne, ne_eq]
  split_ifs at hlen with hk
  · constructor
    · intro h; exact absurd (by omega) h
    · intro h; exact absurd hk h
  · constructor
    · intro _; exact hk
    · intro _; omega

/-- C1: `Add(v)` returns true exactly when no element was stored under
`v.Key()`; the cardinality grows by one when it returns true and is unchanged
when it returns false, so it never shrinks; a second `Add` of the same element
returns false and leaves the cardinality unchanged. -/
theorem C1_add_reports_new_key (s : threadUnsafeSet T) (v : T) :
    ((Add s v).2 = true ↔ s.get? (EqualKeyer.Key v) = none) ∧
    Cardinality (Add s v).1 = (if (Add s v).2 = true then Cardinality s + 1 else Cardinality s) ∧
    Cardinality s ≤ Cardinality (Add s v).1 ∧
    (Add (Add s v).1 v).2 = false ∧
    Cardinality (Add (Add s v).1 v).1 = Cardinality (Add s v).1 := by
  have key : ∀ (s : threadUnsafeSet T),
      Cardinality (Add s v).1 =
        (if (Add s v).2 = true then Cardinality s + 1 else Cardinality s) := by
    intro s
    have hlen := GoMap.len_set s (EqualKeyer.Key v) v
    have hsnd := add_snd s v
    rw [GoMap.get?_eq_none_iff] at hsnd
    simp only [Cardinality, add_fst]
    by_cases hk : EqualKeyer.Key v ∈ GoMap.keys s
    · have : ¬ (Add s v).2 = true := fun h => (hsnd.mp h) hk
      rw [if_neg this]
      rw [if_pos hk] at hlen
      omega
    · rw [if_pos (hsnd.mpr hk)]
      rw [if_neg hk] at hlen
      omega
  have hsecond : (Add (Add s v).1 v).2 = false := by
    have := add_snd (Add s v).1 v
    rw [add_fst, GoMap.get?_set_self] at this
    cases h : (Add (s.set (EqualKeyer.Key v) v) v).2
    · rw [add_fst]; exact h
    · exact absurd (this.mp h) (by simp)
  refine ⟨add_snd s v, key s, ?_, hsecond, ?_⟩
  · rw [key s]; split_ifs <;> omega
  · rw [key (Add s v).1, hsecond]; simp

/-- C2: after `Add(v)` the element stored under `v.Key()` is `v`, whatever was
stored there before, and the lookup of every other key is unchanged. -/
theorem C2_add_last_write_wins (s : threadUnsafeSet T) (v : T) :
    (Add s v).1.get? (EqualKeyer.Key v) = some v ∧
    ∀ k, k ≠ EqualKeyer.Key v → (Add s v).1.get? k = s.get? k :=
  ⟨GoMap.get?_set_self s _ v, fun k hk => GoMap.get?_set_ne s _ k v hk⟩

/-- C3: `Contains(vs...)` is true exactly when every probe has a stored element
under its key that is `Equal` to it; with no probe it is true; a probe whose key
holds a stored element not `Equal` to it makes it false. -/
theorem C3_contains_iff (s : threadUnsafeSet T) (vs : List T) :
    (Contains s vs = true ↔
      ∀ v ∈ vs, ∃ e, s.get? (EqualKeyer.Key v) = some e ∧ EqualKeyer.Equal e v = true) ∧
    Contains s ([] : List T) = true ∧
    (∀ v e, v ∈ vs → s.get? (EqualKeyer.Key v) = some e → EqualKeyer.Equal e v = false →
      Contains s vs = false) := by
  refine ⟨contains_iff_forall s vs, rfl, ?_⟩
  intro v e hv hget heq
  cases h : Contains s vs
  · rfl
  · obtain ⟨e', he', heq'⟩ := (contains_iff_forall s vs).mp h v hv
    rw [hget] at he'
    cases he'
    rw [heq] at heq'
    cases heq'

theorem contains_remove (s : threadUnsafeSet T) (e : T) : Contains (Remove s e) [e] = false := by
  cases h : Contains (Remove s e) [e]
  · rfl
  · obtain ⟨x, hx, _⟩ := (contains_single _ e).mp h
    rw [Remove, GoMap.get?_delete_self] at hx
    cases hx

theorem card_remove_of_present (s : threadUnsafeSet T) (e : T)
    (h : (s.get? (EqualKeyer.Key e)).isSome = true) :
    Cardinality (Remove s e) + 1 = Cardinality s := by
  have hlen := GoMap.len_delete s (EqualKeyer.Key e)
  rw [if_pos ((GoMap.get?_isSome_iff s _).mp h)] at hlen
  exact hlen

/-- C4: after `Add(e)` and then `Remove(e)`, `Contains(e)` is false and the
cardinality is one less than right after the `Add`; whenever an element is
stored under the key of `e` (in particular whenever `Contains(e)` is true),
`Remove(e)` lowers the cardinality by exactly one and makes `Contains(e)`
false. -/
theorem C4_add_then_remove (s : threadUnsafeSet T) (e : T) :
    (Contains (Remove (Add s e).1 e) [e] = false ∧
      Cardinality (Remove (Add s e).1 e) + 1 = Cardinality (Add s e).1) ∧
    ((s.get? (EqualKeyer.Key e)).isSome = true →
      Contains (Remove s e) [e] = false ∧ Cardinality (Remove s e) + 1 = Cardinality s) ∧
    (Contains s [e] = true →
      Contains (Remove s e) [e] = false ∧ Cardinality (Remove s e) + 1 = Cardinality s) := by
  refine ⟨⟨contains_remove _ e, ?_⟩, fun h => ⟨contains_remove s e, card_remove_of_present s e h⟩,
    fun h => ⟨contains_remove s e, ?_⟩⟩
  · apply card_remove_of_present
    rw [add_fst, GoMap.get?_set_self]
    rfl
  · apply card_remove_of_present
    obtain ⟨x, hx, _⟩ := (contains_single s e).mp h
    rw [hx]
    rfl

/-- C5: `Remove(v)` leaves no entry under `v.Key()` and does not change the
lookup of any other key; when no entry is stored under `v.Key()` the set after
the call is the set before it. -/
theorem C5_remove_frame (s : threadUnsafeSet T) (v : T) :
    (Remove s v).get? (EqualKeyer.Key v) = none ∧
    (∀ k, k ≠ EqualKeyer.Key v → (Remove s v).get? k = s.get? k) ∧
    (s.get? (EqualKeyer.Key v) = none → Remove s v = s) :=
  ⟨GoMap.get?_delete_self s _, fun k hk => GoMap.get?_delete_ne s _ k hk,
    fun h => GoMap.delete_of_not_mem s _ ((GoMap.get?_eq_none_iff s _).mp h)⟩

end

/-- C6: `Pop()` reports `ok = false` exactly when the set is empty and then
leaves it unchanged; on a non-empty set it returns an element that was stored,
deletes exactly the entry of that element, leaves every other lookup unchanged,
and lowers the cardinality by exactly one. -/
theorem C6_pop_spec {T : Type} (s : threadUnsafeSet T) :
    ((Pop s).2 = none ↔ Cardinality s = 0) ∧
    ((Pop s).2 = none → (Pop s).1 = s) ∧
    (Cardinality s ≠ 0 → ∃ item, (Pop s).2 = some item) ∧
    (∀ item, (Pop s).2 = some item →
      ∃ key, s.get? key = some item ∧ (Pop s).1.get? key = none ∧
        (∀ k, k ≠ key → (Pop s).1.get? k = s.get? k) ∧
        Cardinality (Pop s).1 + 1 = Cardinality s) := by
  unfold Pop Cardinality GoMap.len
  cases hs : s.entries with
  | nil => simp
  | cons p l =>
    obtain ⟨key, item⟩ := p
    have hmem : (key, item) ∈ s.entries := by rw [hs]; exact List.mem_cons_self _ _
    have hget := (GoMap.get?_eq_some_iff s key item).mpr hmem
    have hlen := GoMap.len_delete s key
    have hk : key ∈ GoMap.keys s := List.mem_map.mpr ⟨(key, item), hmem, rfl⟩
    rw [if_pos hk] at hlen
    simp only [GoMap.len, hs, List.length_cons] at hlen
    refine ⟨by simp, by simp, fun _ => ⟨item, rfl⟩, ?_⟩
    intro item' hitem
    simp only [Option.some.injEq] at hitem
    subst hitem
    exact ⟨key, hget, GoMap.get?_delete_self s key, fun k hk => GoMap.get?_delete_ne s key k hk,
      by simpa [GoMap.len] using hlen⟩

/-- C2, witness: adding `"1"` to the set holding `"test"` keeps the lookup of
`"test"`. -/
theorem C2_witness :
    "test" ≠ EqualKeyer.Key (⟨"1"⟩ : GoString) ∧
    (Add sampleString ⟨"1"⟩).1.get? "test" = sampleString.get? "test" :=
  ⟨by decide, (C2_add_last_write_wins sampleString ⟨"1"⟩).2 "test" (by decide)⟩

/-- C3, witness: revision 2 of the record `a` probes a set that stores revision
1 under the same key. -/
theorem C3_witness :
    sampleRev1.get? "a" = some ⟨"a", 1⟩ ∧ Contains sampleRev1 [⟨"a", 2⟩] = false :=
  ⟨by decide,
    (C3_contains_iff sampleRev1 [⟨"a", 2⟩]).2.2 ⟨"a", 2⟩ ⟨"a", 1⟩ (by decide) (by decide)
      (by decide)⟩

/-- C4, witness: removing `"test"` from the set holding `"1"` and `"test"`. -/
theorem C4_witness :
    Contains sampleStrings [⟨"test"⟩] = true ∧
    Contains (Remove sampleStrings ⟨"test"⟩) [⟨"test"⟩] = false ∧
    Cardinality (Remove sampleStrings ⟨"test"⟩) + 1 = Cardinality sampleStrings :=
  ⟨by decide, (C4_add_then_remove sampleStrings ⟨"test"⟩).2.2 (by decide)⟩

/-- C5, witness: removing the absent `"1"` from the set holding `"test"`. -/
theorem C5_witness :
    sampleString.get? "1" = none ∧ Remove sampleString ⟨"1"⟩ = sampleString :=
  ⟨by decide, (C5_remove_frame sampleString ⟨"1"⟩).2.2 (by decide)⟩

/-- C6, witness: `Pop` on the set holding `"1"` and `"test"` returns an
element. -/
theorem C6_witness :
    Cardinality sampleStrings ≠ 0 ∧ ∃ item, (Pop sampleStrings).2 = some item :=
  ⟨by decide, (C6_pop_spec sampleStrings).2.2.1 (by decide)⟩

end threadUnsafeSet

/-! ## Loops that add to a new set -/

namespace threadUnsafeSet

section

variable {T : Type} [EqualKeyer T]

theorem mem_entries_key (s : threadUnsafeSet T) (hs : KeyConsistent s) (p : String × T)
    (hp : p ∈ s.entries) : s.get? (EqualKeyer.Key p.2) = some p.2 := by
  rw [GoMap.get?_eq_some_iff, ← hs p hp]
  exact hp

theorem mem_elems_iff (s : threadUnsafeSet T) (hs : KeyConsistent s) (e : T) :
    e ∈ elems s ↔ s.get? (EqualKeyer.Key e) = some e := by
  constructor
  · intro h
    obtain ⟨p, hp, rfl⟩ := List.mem_map.mp h
    exact mem_entries_key s hs p hp
  · intro h
    exact List.mem_map.mpr ⟨_, (GoMap.get?_eq_some_iff s _ e).mp h, rfl⟩

theorem key_of_get? (s : threadUnsafeSet T) (hs : KeyConsistent s) (k : String) (e : T)
    (h : s.get? k = some e) : EqualKeyer.Key e = k :=
  (hs (k, e) ((GoMap.get?_eq_some_iff s k e).mp h)).symm

/-- The loop `for _, elem := range l { if c(elem) { acc.Add(elem) } }` over
entries with distinct keys, each stored under the key of its element: the
lookup of a key in the result. -/
theorem get?_foldl_add_list (c : T → Bool) (l : List (String × T))
    (hl : (l.map Prod.fst).Nodup) (hc : ∀ p ∈ l, p.1 = EqualKeyer.Key p.2)
    (acc : threadUnsafeSet T) (k : String) :
    (l.foldl (fun a p => if c p.2 = true then (Add a p.2).1 else a) acc).get? k =
      match (l.find? (fun p => p.1 == k)).map Prod.snd with
      | some v => if c v = true then some v else acc.get? k
      | none => acc.get? k := by
  induction l generalizing acc with
  | nil => simp
  | cons p l ih =>
    rw [List.map_cons, List.nodup_cons] at hl
    have hcp := hc p (List.mem_cons_self _ _)
    rw [List.foldl_cons, ih hl.2 (fun q hq => hc q (List.mem_cons_of_mem _ hq))]
    by_cases hpk : p.1 = k
    · have hnone : l.find? (fun q => q.1 == k) = none := by
        rw [List.find?_eq_none]
        intro q hq hqk
        apply hl.1
        rw [hpk]
        exact List.mem_map.mpr ⟨q, hq, by simpa using hqk⟩
      rw [hnone, List.find?_cons_of_pos _ (by simpa using hpk)]
      simp only [Option.map_none', Option.map_some']
      by_cases hcv : c p.2 = true
      · rw [if_pos hcv, if_pos hcv, add_fst, ← hcp, hpk, GoMap.get?_set_self]
      · rw [if_neg hcv, if_neg hcv]
    · rw [List.find?_cons_of_neg _ (by simpa using hpk)]
      have hacc : (if c p.2 = true then (Add acc p.2).1 else acc).get? k = acc.get? k := by
        by_cases hcv : c p.2 = true
        · rw [if_pos hcv, add_fst, GoMap.get?_set_ne]
          rw [← hcp]
          exact fun e => hpk e.symm
        · rw [if_neg hcv]
      rw [hacc]

theorem get?_foldl_add_if (c : T → Bool) (s : threadUnsafeSet T) (hs : KeyConsistent s)
    (acc : threadUnsafeSet T) (k : String) :
    (s.entries.foldl (fun a p => if c p.2 = true then (Add a p.2).1 else a) acc).get? k =
      match s.get? k with
      | some v => if c v = true then some v else acc.get? k
      | none => acc.get? k :=
  get?_foldl_add_list c s.entries s.nodup hs acc k

theorem get?_foldl_add (s : threadUnsafeSet T) (hs : KeyConsistent s)
    (acc : threadUnsafeSet T) (k : String) :
    (s.entries.foldl (fun a p => (Add a p.2).1) acc).get? k =
      match s.get? k with
      | some v => some v
      | none => acc.get? k := by
  have := get?_foldl_add_if (fun _ => true) s hs acc k
  simpa using this

theorem get?_clone (s : threadUnsafeSet T) (hs : KeyConsistent s) (k : String) :
    (Clone s).get? k = s.get? k := by
  rw [Clone, get?_foldl_add s hs]
  cases s.get? k <;> rfl

theorem get?_union (s t : threadUnsafeSet T) (hs : KeyConsistent s) (ht : KeyConsistent t)
    (k : String) :
    (Union s t).get? k = match t.get? k with
      | some v => some v
      | none => s.get? k := by
  simp only [Union]
  rw [get?_foldl_add t ht]
  have := get?_clone s hs k
  rw [Clone] at this
  rw [this]

theorem get?_intersect_lt (s t : threadUnsafeSet T) (hs : KeyConsistent s)
    (h : Cardinality s < Cardinality t) (k : String) :
    (Intersect s t).get? k = match s.get? k with
      | some v => if Contains t [v] = true then some v else none
      | none => none := by
  simp only [Intersect, if_pos h]
  rw [get?_foldl_add_if (fun v => Contains t [v]) s hs]
  rfl

theorem get?_intersect_ge (s t : threadUnsafeSet T) (ht : KeyConsistent t)
    (h : ¬ Cardinality s < Cardinality t) (k : String) :
    (Intersect s t).get? k = match t.get? k with
      | some v => if Contains s [v] = true then some v else none
      | none => none := by
  simp only [Intersect, if_neg h]
  rw [get?_foldl_add_if (fun v => Contains s [v]) t ht]
  rfl

theorem isSubset_iff (s t : threadUnsafeSet T) :
    IsSubset s t = true ↔
      Cardinality s ≤ Cardinality t ∧ ∀ p ∈ s.entries, Contains t [p.2] = true := by
  unfold IsSubset
  by_cases h : Cardinality s > Cardinality t
  · simp only [h, if_true, Bool.false_eq_true, false_iff, not_and]
    intro h'; omega
  · simp only [h, if_false, List.all_eq_true]
    constructor
    · intro h'; exact ⟨by omega, h'⟩
    · intro h'; exact h'.2

theorem equal_iff (s t : threadUnsafeSet T) :
    Equal s t = true ↔
      Cardinality s = Cardinality t ∧ ∀ p ∈ s.entries, Contains t [p.2] = true := by
  unfold Equal
  by_cases h : Cardinality s = Cardinality t
  · simp [h]
  · simp [h]

end

end threadUnsafeSet

/-! ## Clone -/

namespace threadUnsafeSet

section

variable {T : Type} [EqualKeyer T]

theorem card_clone (s : threadUnsafeSet T) (hs : KeyConsistent s) :
    Cardinality (Clone s) = Cardinality s :=
  GoMap.len_eq_of_get? _ _ (fun k => by rw [get?_clone s hs])

theorem clone_equal_iff (s : threadUnsafeSet T) (hs : KeyConsistent s) :
    Equal (Clone s) s = true ↔ ∀ e ∈ elems s, EqualKeyer.Equal e e = true := by
  rw [equal_iff]
  constructor
  · rintro ⟨_, h⟩ e he
    have hget := (mem_elems_iff s hs e).mp he
    have hmem : (EqualKeyer.Key e, e) ∈ (Clone s).entries := by
      rw [← GoMap.get?_eq_some_iff, get?_clone s hs]; exact hget
    obtain ⟨x, hx, hxe⟩ := (contains_single s e).mp (h _ hmem)
    rw [hget] at hx
    cases hx
    exact hxe
  · intro h
    refine ⟨card_clone s hs, ?_⟩
    intro p hp
    have hget : s.get? p.1 = some p.2 := by
      rw [← get?_clone s hs, GoMap.get?_eq_some_iff]
      exact hp
    have hkey := key_of_get? s hs p.1 p.2 hget
    rw [contains_single]
    refine ⟨p.2, by rw [hkey]; exact hget, h p.2 ?_⟩
    exact List.mem_map.mpr ⟨p, (GoMap.get?_eq_some_iff s p.1 p.2).mp hget, rfl⟩

end

end threadUnsafeSet

namespace Mem

section

variable {T : Type}

theorem load_write_same (h : Mem T) (s : Nat) (m : GoMap T) : (h.write s m).load s = m := by
  simp [load, write]

theorem load_write_other (h : Mem T) (s c : Nat) (m : GoMap T) (hne : h.cell c ≠ h.cell s) :
    (h.write s m).load c = h.load c := by
  simp [load, write, Function.update_noteq hne]

theorem write_write (h : Mem T) (s : Nat) (m m' : GoMap T) :
    (h.write s m).write s m' = h.write s m' := by
  simp [write]

theorem write_load (h : Mem T) (s : Nat) : h.write s (h.load s) = h := by
  cases h
  simp [write, load]

theorem apart_symm (h : Mem T) (a b : Nat) (hab : Apart h a b) : Apart h b a :=
  ⟨hab.2.1, hab.1, Ne.symm hab.2.2.1, Ne.symm hab.2.2.2⟩

end

section

variable {T : Type} [EqualKeyer T]

/-- The loop of `Clone`, run on the memory, changes only the table of the
variable it adds to, and leaves there what the loop on the map computes. -/
theorem foldl_add_eq_write (l : List (String × T)) (h : Mem T) (c : Nat) :
    l.foldl (fun m p => (Add m c p.2).1) h =
      h.write c (l.foldl (fun a p => (threadUnsafeSet.Add a p.2).1) (h.load c)) := by
  induction l generalizing h with
  | nil => simp [write_load]
  | cons p l ih =>
    rw [List.foldl_cons, ih, List.foldl_cons]
    simp only [Add, load_write_same, write_write]

theorem clone_eq (h : Mem T) (s : Nat) :
    Clone h s = (h.newSet.1.write h.cellTop (threadUnsafeSet.Clone (h.load s)), h.cellTop) := by
  simp only [Clone, foldl_add_eq_write, threadUnsafeSet.Clone]
  congr 2
  simp [newSet, load, newThreadUnsafeSet]

theorem mutate_apart (h : Mem T) (a b : Nat) (hab : Apart h a b) (μ : Mutation T) :
    (mutate h a μ).load b = h.load b ∧ Apart (mutate h a μ) a b := by
  obtain ⟨⟨ha1, ha2⟩, ⟨hb1, hb2⟩, hne, hcne⟩ := hab
  have hw : ∀ m : GoMap T, (h.write a m).load b = h.load b ∧ Apart (h.write a m) a b := by
    intro m
    exact ⟨load_write_other h a b m (Ne.symm hcne), ⟨ha1, ha2⟩, ⟨hb1, hb2⟩, hne, hcne⟩
  cases μ with
  | add v => exact hw _
  | remove v => exact hw _
  | pop => exact hw _
  | clear =>
    have hba : b ≠ a := Ne.symm hne
    have hbt : h.cell b ≠ h.tableTop := Nat.ne_of_lt hb2
    refine ⟨?_, ⟨?_, ?_⟩, ⟨?_, ?_⟩, hne, ?_⟩
    · simp [mutate, Clear, load, Function.update_noteq hba, Function.update_noteq hbt]
    · exact ha1
    · simp [mutate, Clear]
    · exact hb1
    · simp only [mutate, Clear, Function.update_noteq hba]
      omega
    · simp only [mutate, Clear, Function.update_noteq hba, Function.update_same]
      exact Ne.symm hbt

theorem mutateAll_apart (h : Mem T) (a b : Nat) (hab : Apart h a b) (μs : List (Mutation T)) :
    (mutateAll h a μs).load b = h.load b := by
  induction μs generalizing h with
  | nil => rfl
  | cons μ μs ih =>
    obtain ⟨h1, h2⟩ := mutate_apart h a b hab μ
    rw [mutateAll, List.foldl_cons]
    exact (ih (mutate h a μ) h2).trans h1

theorem clone_apart (h : Mem T) (s : Nat) (hlive : h.Live s) :
    (Clone h s).1.load s = h.load s ∧ Apart (Clone h s).1 s (Clone h s).2 := by
  obtain ⟨h1, h2⟩ := hlive
  have hs : s ≠ h.cellTop := Nat.ne_of_lt h1
  have ht : h.cell s ≠ h.tableTop := Nat.ne_of_lt h2
  rw [clone_eq]
  refine ⟨?_, ⟨?_, ?_⟩, ⟨?_, ?_⟩, hs, ?_⟩
  · simp [load, write, newSet, Function.update_noteq hs, Function.update_noteq ht]
  · simp only [write, newSet]; omega
  · simp only [write, newSet, Function.update_noteq hs]; omega
  · simp only [write, newSet]; omega
  · simp only [write, newSet, Function.update_same]; omega
  · simp only [write, newSet, Function.update_noteq hs, Function.update_same]
    exact ht

end

end Mem

/-- C7, as amended: for a set `s` that stores every element under its key,
`s.Clone().Equal(s)` is true exactly when every stored element is `Equal` to
itself; the clone is the map computed by the loop of `Clone`, stores the same
element under every key as `s`, leaves `s` unchanged, and is independent of
`s`: any sequence of `Add`, `Remove`, `Pop` and `Clear` applied to the clone
leaves `s` as it was, and applied to `s` leaves the clone as it was. -/
theorem C7_clone_equal_independent {T : Type} [EqualKeyer T] (h : Mem T) (s : Nat)
    (hlive : h.Live s) (hs : threadUnsafeSet.KeyConsistent (h.load s)) :
    (threadUnsafeSet.Equal ((Mem.Clone h s).1.load (Mem.Clone h s).2) ((Mem.Clone h s).1.load s)
        = true ↔
      ∀ e ∈ threadUnsafeSet.elems (h.load s), EqualKeyer.Equal e e = true) ∧
    (Mem.Clone h s).1.load (Mem.Clone h s).2 = threadUnsafeSet.Clone (h.load s) ∧
    (∀ k, ((Mem.Clone h s).1.load (Mem.Clone h s).2).get? k = (h.load s).get? k) ∧
    (Mem.Clone h s).1.load s = h.load s ∧
    (Mem.Clone h s).2 ≠ s ∧
    (∀ μs : List (Mutation T),
      (Mem.mutateAll (Mem.Clone h s).1 (Mem.Clone h s).2 μs).load s = h.load s) ∧
    (∀ μs : List (Mutation T),
      (Mem.mutateAll (Mem.Clone h s).1 s μs).load (Mem.Clone h s).2 =
        (Mem.Clone h s).1.load (Mem.Clone h s).2) := by
  obtain ⟨hsame, hapart⟩ := Mem.clone_apart h s hlive
  have hclone : (Mem.Clone h s).1.load (Mem.Clone h s).2 = threadUnsafeSet.Clone (h.load s) := by
    rw [Mem.clone_eq]
    exact Mem.load_write_same _ _ _
  refine ⟨?_, hclone, ?_, hsame, Ne.symm hapart.2.2.1, ?_, ?_⟩
  · rw [hclone, hsame]
    exact threadUnsafeSet.clone_equal_iff (h.load s) hs
  · intro k
    rw [hclone]
    exact threadUnsafeSet.get?_clone (h.load s) hs k
  · intro μs
    rw [Mem.mutateAll_apart _ _ _ (Mem.apart_symm _ _ _ hapart) μs]
    exact hsame
  · intro μs
    exact Mem.mutateAll_apart _ _ _ hapart μs

/-- C7 fails as stated: the clone of the set of one `*yourType` element, whose
`Equal` is false on every pair, is not `Equal` to the set. -/
theorem C7_counterexample :
    threadUnsafeSet.KeyConsistent sampleBob ∧
    threadUnsafeSet.elems (threadUnsafeSet.Clone sampleBob) = threadUnsafeSet.elems sampleBob ∧
    threadUnsafeSet.Equal (threadUnsafeSet.Clone sampleBob) sampleBob = false := by
  decide

/-- C7, witness: the amended statement at a memory holding a set of two `String`
elements. -/
theorem C7_witness :
    sampleMem.Live 0 ∧ threadUnsafeSet.KeyConsistent (sampleMem.load 0) ∧
    threadUnsafeSet.Equal ((Mem.Clone sampleMem 0).1.load (Mem.Clone sampleMem 0).2)
      ((Mem.Clone sampleMem 0).1.load 0) = true :=
  ⟨by decide, by decide,
    (C7_clone_equal_independent sampleMem 0 (by decide) (by decide)).1.mpr (by decide)⟩

/-! ## Union and Intersect -/

namespace threadUnsafeSet

section

variable {T : Type} [EqualKeyer T]

theorem card_le_union_left (s t : threadUnsafeSet T) (hs : KeyConsistent s)
    (ht : KeyConsistent t) : Cardinality s ≤ Cardinality (Union s t) := by
  apply GoMap.len_le_of_keys
  intro k hk
  rw [← GoMap.get?_isSome_iff] at hk ⊢
  rw [get?_union s t hs ht]
  cases t.get? k with
  | none => exact hk
  | some v => rfl

theorem card_le_union_right (s t : threadUnsafeSet T) (hs : KeyConsistent s)
    (ht : KeyConsistent t) : Cardinality t ≤ Cardinality (Union s t) := by
  apply GoMap.len_le_of_keys
  intro k hk
  rw [← GoMap.get?_isSome_iff] at hk ⊢
  rw [get?_union s t hs ht]
  cases h : t.get? k with
  | none => rw [h] at hk; cases hk
  | some v => rfl

/-- C8, as amended: for sets that store every element under its key,
`s.Union(t).IsSuperset(s)` is true exactly when every element `e` of `s` is
matched by `Equal` against the element the union stores under `e.Key()`: the
element of `t` under that key when `t` has one, `e` itself otherwise. -/
theorem C8_union_superset_receiver (s t : threadUnsafeSet T) (hs : KeyConsistent s)
    (ht : KeyConsistent t) :
    IsSuperset (Union s t) s = true ↔
      ∀ e ∈ elems s, EqualKeyer.Equal ((t.get? (EqualKeyer.Key e)).getD e) e = true := by
  have hu : ∀ e ∈ elems s,
      (Union s t).get? (EqualKeyer.Key e) = some ((t.get? (EqualKeyer.Key e)).getD e) := by
    intro e he
    rw [get?_union s t hs ht, (mem_elems_iff s hs e).mp he]
    cases t.get? (EqualKeyer.Key e) <;> rfl
  rw [IsSuperset, isSubset_iff]
  constructor
  · rintro ⟨_, h⟩ e he
    obtain ⟨p, hp, rfl⟩ := List.mem_map.mp he
    obtain ⟨x, hx, hxe⟩ := (contains_single _ p.2).mp (h p hp)
    rw [hu p.2 he] at hx
    cases hx
    exact hxe
  · intro h
    refine ⟨card_le_union_left s t hs ht, ?_⟩
    intro p hp
    have he : p.2 ∈ elems s := List.mem_map.mpr ⟨p, hp, rfl⟩
    rw [contains_single]
    exact ⟨_, hu p.2 he, h p.2 he⟩

/-- C9, as amended: for sets that store every element under its key,
`s.Union(t).IsSuperset(t)` is true exactly when every element of `t` is `Equal`
to itself. -/
theorem C9_union_superset_argument (s t : threadUnsafeSet T) (hs : KeyConsistent s)
    (ht : KeyConsistent t) :
    IsSuperset (Union s t) t = true ↔ ∀ e ∈ elems t, EqualKeyer.Equal e e = true := by
  have hu : ∀ e ∈ elems t, (Union s t).get? (EqualKeyer.Key e) = some e := by
    intro e he
    rw [get?_union s t hs ht, (mem_elems_iff t ht e).mp he]
  rw [IsSuperset, isSubset_iff]
  constructor
  · rintro ⟨_, h⟩ e he
    obtain ⟨p, hp, rfl⟩ := List.mem_map.mp he
    obtain ⟨x, hx, hxe⟩ := (contains_single _ p.2).mp (h p hp)
    rw [hu p.2 he] at hx
    cases hx
    exact hxe
  · intro h
    refine ⟨card_le_union_right s t hs ht, ?_⟩
    intro p hp
    have he : p.2 ∈ elems t := List.mem_map.mpr ⟨p, hp, rfl⟩
    rw [contains_single]
    exact ⟨_, hu p.2 he, h p.2 he⟩

/-- C10, as amended: for sets that store every element under its key,
`s.Intersect(t).IsSubset(s)` is true whenever `Intersect` iterates the argument
(`Cardinality(s) >= Cardinality(t)`); when it iterates the receiver it is true
exactly when every element of `s` that `t` contains is `Equal` to itself. -/
theorem C10_intersect_subset_receiver (s t : threadUnsafeSet T) (hs : KeyConsistent s)
    (ht : KeyConsistent t) :
    (¬ Cardinality s < Cardinality t → IsSubset (Intersect s t) s = true) ∧
    (Cardinality s < Cardinality t →
      (IsSubset (Intersect s t) s = true ↔
        ∀ e ∈ elems s, Contains t [e] = true → EqualKeyer.Equal e e = true)) := by
  constructor
  · intro hge
    rw [isSubset_iff]
    have hchar : ∀ k v, (Intersect s t).get? k = some v →
        t.get? k = some v ∧ Contains s [v] = true := by
      intro k v hkv
      rw [get?_intersect_ge s t ht hge] at hkv
      cases hg : t.get? k with
      | none => rw [hg] at hkv; cases hkv
      | some w =>
        rw [hg] at hkv
        by_cases hc : Contains s [w] = true
        · simp only [hc, if_true, Option.some.injEq] at hkv
          subst hkv
          exact ⟨rfl, hc⟩
        · simp [hc] at hkv
    constructor
    · apply GoMap.len_le_of_keys
      intro k hk
      rw [← GoMap.get?_isSome_iff] at hk ⊢
      obtain ⟨v, hv⟩ := Option.isSome_iff_exists.mp hk
      obtain ⟨hget, hc⟩ := hchar k v hv
      obtain ⟨x, hx, _⟩ := (contains_single s v).mp hc
      rw [key_of_get? t ht k v hget] at hx
      rw [hx]; rfl
    · intro p hp
      exact (hchar p.1 p.2 ((GoMap.get?_eq_some_iff _ p.1 p.2).mpr hp)).2
  · intro hlt
    have hchar : ∀ k v, (Intersect s t).get? k = some v ↔
        (s.get? k = some v ∧ Contains t [v] = true) := by
      intro k v
      rw [get?_intersect_lt s t hs hlt]
      cases hg : s.get? k with
      | none => simp
      | some w =>
        by_cases hc : Contains t [w] = true
        · simp only [hc, if_true, Option.some.injEq]
          constructor
          · intro h; subst h; exact ⟨rfl, hc⟩
          · intro h; exact h.1
        · simp only [hc, Bool.false_eq_true, if_false, Option.some.injEq]
          constructor
          · intro h; cases h
          · rintro ⟨h, hv⟩
            subst h
            exact absurd hv hc
    rw [isSubset_iff]
    constructor
    · rintro ⟨_, h⟩ e he hce
      have hget := (mem_elems_iff s hs e).mp he
      have hmem : (EqualKeyer.Key e, e) ∈ (Intersect s t).entries := by
        rw [← GoMap.get?_eq_some_iff, hchar]; exact ⟨hget, hce⟩
      obtain ⟨x, hx, hxe⟩ := (contains_single s e).mp (h _ hmem)
      rw [hget] at hx
      cases hx
      exact hxe
    · intro h
      constructor
      · apply GoMap.len_le_of_keys
        intro k hk
        rw [← GoMap.get?_isSome_iff] at hk ⊢
        obtain ⟨v, hv⟩ := Option.isSome_iff_exists.mp hk
        rw [((hchar k v).mp hv).1]; rfl
      · intro p hp
        obtain ⟨hget, hc⟩ := (hchar p.1 p.2).mp ((GoMap.get?_eq_some_iff _ p.1 p.2).mpr hp)
        have hkey := key_of_get? s hs p.1 p.2 hget
        have he : p.2 ∈ elems s :=
          List.mem_map.mpr ⟨p, (GoMap.get?_eq_some_iff s p.1 p.2).mp hget, rfl⟩
        rw [contains_single]
        exact ⟨p.2, by rw [hkey]; exact hget, h p.2 he hc⟩

end

/-- C8 fails as stated: the sets holding revision 1 and revision 2 of the
record named `a` have a union that holds revision 2 only, which is not a
superset of the receiver. -/
theorem C8_counterexample :
    KeyConsistent sampleRev1 ∧ KeyConsistent sampleRev2 ∧
    (∀ e ∈ elems sampleRev1 ++ elems sampleRev2, EqualKeyer.Equal e e = true) ∧
    (Union sampleRev1 sampleRev2).get? "a" = some ⟨"a", 2⟩ ∧
    IsSuperset (Union sampleRev1 sampleRev2) sampleRev1 = false := by
  decide

/-- C9 fails as stated: for the set of one `*yourType` element, whose `Equal`
is false on every pair, the union with itself is not a superset of the
argument. -/
theorem C9_counterexample :
    KeyConsistent sampleBob ∧ IsSuperset (Union sampleBob sampleBob) sampleBob = false := by
  decide

/-- C10 fails as stated: `Intersect` iterates the smaller receiver, keeps its
plain record because the master record of the argument vouches for it, and the
receiver does not contain its own plain record. -/
theorem C10_counterexample :
    KeyConsistent samplePlain ∧ KeyConsistent sampleMasters ∧
    Cardinality samplePlain < Cardinality sampleMasters ∧
    elems (Intersect samplePlain sampleMasters) = [⟨"a", false⟩] ∧
    IsSubset (Intersect samplePlain sampleMasters) samplePlain = false := by
  decide

/-- C8, witness: a set of one `String` element united with a set of two. -/
theorem C8_witness :
    KeyConsistent sampleString ∧ KeyConsistent sampleStrings ∧
    IsSuperset (Union sampleString sampleStrings) sampleString = true :=
  ⟨by decide, by decide,
    (C8_union_superset_receiver sampleString sampleStrings (by decide) (by decide)).mpr
      (by decide)⟩

/-- C9, witness: a set of one `String` element united with a set of two. -/
theorem C9_witness :
    KeyConsistent sampleString ∧ KeyConsistent sampleStrings ∧
    IsSuperset (Union sampleString sampleStrings) sampleStrings = true :=
  ⟨by decide, by decide,
    (C9_union_superset_argument sampleString sampleStrings (by decide) (by decide)).mpr
      (by decide)⟩

/-- C10, witness: the smaller receiver is iterated and its `String` element is
`Equal` to itself. -/
theorem C10_witness :
    KeyConsistent sampleString ∧ KeyConsistent sampleStrings ∧
    Cardinality sampleString < Cardinality sampleStrings ∧
    IsSubset (Intersect sampleString sampleStrings) sampleString = true :=
  ⟨by decide, by decide, by decide,
    ((C10_intersect_subset_receiver sampleString sampleStrings (by decide) (by decide)).2
      (by decide)).mpr (by decide)⟩

end threadUnsafeSet

/-! ## Subset and equality -/

namespace GoMap

variable {T : Type}

theorem keys_of_len_eq (m m' : GoMap T) (h : ∀ k, k ∈ m.keys → k ∈ m'.keys)
    (hlen : m.len = m'.len) : ∀ k, k ∈ m'.keys → k ∈ m.keys := by
  have hperm : m.keys.Perm m'.keys :=
    (List.subperm_of_subset m.nodup h).perm_of_length_le
      (by simp only [keys, List.length_map]; exact Nat.le_of_eq hlen.symm)
  intro k hk
  exact hperm.symm.subset hk

theorem len_eq_zero_iff (m : GoMap T) : m.len = 0 ↔ ∀ k, m.get? k = none := by
  constructor
  · intro h k
    rw [get?_eq_none_iff]
    have : m.entries = [] := List.length_eq_zero.mp h
    simp [keys, this]
  · intro h
    cases hm : m.entries with
    | nil => simp [len, hm]
    | cons p l =>
      have hp : m.get? p.1 = some p.2 := (get?_eq_some_iff m p.1 p.2).mpr (by simp [hm])
      rw [h] at hp
      cases hp

end GoMap

namespace threadUnsafeSet

theorem forall_entries_iff {T : Type} (s : threadUnsafeSet T) (P : T → Prop) :
    (∀ p ∈ s.entries, P p.2) ↔ ∀ e ∈ elems s, P e := by
  constructor
  · intro h e he
    obtain ⟨p, hp, rfl⟩ := List.mem_map.mp he
    exact h p hp
  · intro h p hp
    exact h p.2 (List.mem_map.mpr ⟨p, hp, rfl⟩)

section

variable {T : Type} [EqualKeyer T]

theorem contains_single_eq (t : threadUnsafeSet T) (x : T) :
    Contains t [x] = match t.get? (EqualKeyer.Key x) with
      | some y => EqualKeyer.Equal y x
      | none => false := by
  rw [Contains]
  cases t.get? (EqualKeyer.Key x) with
  | none => rfl
  | some y => cases h : EqualKeyer.Equal y x <;> simp [h, Contains]

/-- For sets that store every element under its key, and an `Equal` that goes
both ways between elements of the two sets under one key, `Equal` of sets is
containment in both directions. -/
theorem equal_iff_mutual (s t : threadUnsafeSet T) (hs : KeyConsistent s)
    (ht : KeyConsistent t)
    (hsymm : ∀ x ∈ elems s, ∀ y ∈ elems t, EqualKeyer.Key x = EqualKeyer.Key y →
      EqualKeyer.Equal y x = true → EqualKeyer.Equal x y = true) :
    Equal s t = true ↔
      Cardinality s = Cardinality t ∧ (∀ e ∈ elems s, Contains t [e] = true) ∧
        (∀ e ∈ elems t, Contains s [e] = true) := by
  rw [equal_iff, forall_entries_iff s (fun e => Contains t [e] = true)]
  constructor
  · rintro ⟨hcard, hst⟩
    refine ⟨hcard, hst, ?_⟩
    have hsub : ∀ k, k ∈ GoMap.keys s → k ∈ GoMap.keys t := by
      intro k hk
      rw [← GoMap.get?_isSome_iff] at hk ⊢
      obtain ⟨x, hx⟩ := Option.isSome_iff_exists.mp hk
      have hxe : x ∈ elems s := List.mem_map.mpr ⟨_, (GoMap.get?_eq_some_iff s k x).mp hx, rfl⟩
      obtain ⟨y, hy, _⟩ := (contains_single t x).mp (hst x hxe)
      rw [key_of_get? s hs k x hx] at hy
      rw [hy]; rfl
    intro y hy
    have hyget := (mem_elems_iff t ht y).mp hy
    have hk : EqualKeyer.Key y ∈ GoMap.keys s := by
      apply GoMap.keys_of_len_eq s t hsub hcard
      rw [← GoMap.get?_isSome_iff, hyget]; rfl
    rw [← GoMap.get?_isSome_iff] at hk
    obtain ⟨x, hx⟩ := Option.isSome_iff_exists.mp hk
    have hxe : x ∈ elems s := List.mem_map.mpr ⟨_, (GoMap.get?_eq_some_iff s _ x).mp hx, rfl⟩
    have hkey := key_of_get? s hs _ x hx
    obtain ⟨y', hy', hyx⟩ := (contains_single t x).mp (hst x hxe)
    rw [hkey, hyget] at hy'
    cases hy'
    rw [contains_single]
    exact ⟨x, hx, hsymm x hxe y hy hkey hyx⟩
  · rintro ⟨hcard, hst, _⟩
    exact ⟨hcard, hst⟩

/-- C13, as amended: `s.Equal(t)` is true if and only if `s` and `t` have the
same cardinality and every element of `s` is `Contains`-true in `t`; the
elements of `t` are not probed.  For sets that store every element under its
key, and when `x.Equal(y)` follows from `y.Equal(x)` for every element `x` of
`s` and `y` of `t` under one key, that is the same as the two sets having the
same cardinality and containing each other. -/
theorem C13_equal_iff (s t : threadUnsafeSet T) :
    (Equal s t = true ↔
      Cardinality s = Cardinality t ∧ ∀ e ∈ elems s, Contains t [e] = true) ∧
    (KeyConsistent s → KeyConsistent t →
      (∀ x ∈ elems s, ∀ y ∈ elems t, EqualKeyer.Key x = EqualKeyer.Key y →
        EqualKeyer.Equal y x = true → EqualKeyer.Equal x y = true) →
      (Equal s t = true ↔
        Cardinality s = Cardinality t ∧ (∀ e ∈ elems s, Contains t [e] = true) ∧
          (∀ e ∈ elems t, Contains s [e] = true))) := by
  refine ⟨?_, fun hs ht hsymm => equal_iff_mutual s t hs ht hsymm⟩
  rw [equal_iff, forall_entries_iff s (fun e => Contains t [e] = true)]

/-- C14: `s.IsSubset(t)` is true if and only if the cardinality of `s` is at
most that of `t` and every element stored in `s` is `Contains`-true in `t`; the
empty set is a subset of every set. -/
theorem C14_isSubset_iff (s t : threadUnsafeSet T) :
    (IsSubset s t = true ↔
      Cardinality s ≤ Cardinality t ∧ ∀ e ∈ elems s, Contains t [e] = true) ∧
    IsSubset (newThreadUnsafeSet : threadUnsafeSet T) t = true := by
  constructor
  · rw [isSubset_iff, forall_entries_iff s (fun e => Contains t [e] = true)]
  · rw [isSubset_iff]
    exact ⟨Nat.zero_le _, fun p hp => by cases hp⟩

theorem equal_comm_of_symm (s t : threadUnsafeSet T) (hs : KeyConsistent s)
    (ht : KeyConsistent t)
    (hsymm : ∀ x ∈ elems s, ∀ y ∈ elems t, EqualKeyer.Key x = EqualKeyer.Key y →
      EqualKeyer.Equal x y = EqualKeyer.Equal y x) :
    Equal s t = Equal t s := by
  have h1 := equal_iff_mutual s t hs ht
    (fun x hx y hy hk h => by rw [hsymm x hx y hy hk]; exact h)
  have h2 := equal_iff_mutual t s ht hs
    (fun y hy x hx hk h => by rw [← hsymm x hx y hy hk.symm]; exact h)
  have : Equal s t = true ↔ Equal t s = true := by
    rw [h1, h2]
    constructor
    · rintro ⟨a, b, c⟩; exact ⟨a.symm, c, b⟩
    · rintro ⟨a, b, c⟩; exact ⟨a.symm, c, b⟩
  cases h : Equal s t <;> cases h' : Equal t s <;> simp_all

/-- C15, as amended: `s.IsSuperset(t)` equals `t.IsSubset(s)`; `IsProperSubset`
is `IsSubset` and not `Equal`; `s.IsProperSuperset(t)` is `t.IsSubset(s)` and
not `s.Equal(t)`, and it equals `t.IsProperSubset(s)` exactly when `s.Equal(t)`
and `t.Equal(s)` agree on every `t` that is a subset of `s`, which they do for
sets that store every element under its key when `Equal` is symmetric between
the elements of `s` and of `t` under one key. -/
theorem C15_superset_mirror (s t : threadUnsafeSet T) :
    IsSuperset s t = IsSubset t s ∧
    IsProperSubset s t = (IsSubset s t && !Equal s t) ∧
    IsProperSuperset s t = (IsSubset t s && !Equal s t) ∧
    (IsProperSuperset s t = IsProperSubset t s ↔
      (IsSubset t s = true → Equal s t = Equal t s)) ∧
    (KeyConsistent s → KeyConsistent t →
      (∀ x ∈ elems s, ∀ y ∈ elems t, EqualKeyer.Key x = EqualKeyer.Key y →
        EqualKeyer.Equal x y = EqualKeyer.Equal y x) →
      IsProperSuperset s t = IsProperSubset t s) := by
  refine ⟨rfl, rfl, rfl, ?_, ?_⟩
  · simp only [IsProperSuperset, IsProperSubset, IsSuperset]
    cases IsSubset t s <;> cases Equal s t <;> cases Equal t s <;> simp
  · intro hs ht hsymm
    simp only [IsProperSuperset, IsProperSubset, IsSuperset]
    rw [equal_comm_of_symm s t hs ht hsymm]

end

/-- C18: after `Clear()` the cardinality is 0, `Contains` of any single element
is false and `Pop` reports `ok = false`; a second `Clear` leaves the same empty
set as the first. -/
theorem C18_clear_empties {T : Type} [EqualKeyer T] (s : threadUnsafeSet T) :
    Cardinality (Clear s) = 0 ∧
    (∀ v : T, Contains (Clear s) [v] = false) ∧
    (Pop (Clear s)).2 = none ∧ (Pop (Clear s)).1 = Clear s ∧
    Clear (Clear s) = Clear s ∧
    (∀ (h : Mem T) (a : Nat),
      (Mem.Clear h a).load a = Clear (h.load a) ∧
      (Mem.Clear (Mem.Clear h a) a).load a = (Mem.Clear h a).load a) := by
  refine ⟨rfl, fun v => rfl, rfl, rfl, rfl, ?_⟩
  intro h a
  constructor <;> simp [Mem.Clear, Mem.load, Clear, newThreadUnsafeSet]

/-- C13 fails as stated: the set holding the `yourType` value `a` is `Equal` to
the set holding a pointer to such a value, because the pointer, as receiver,
accepts the value; the first set does not contain the pointer. -/
theorem C13_counterexample :
    KeyConsistent sampleValue ∧ KeyConsistent samplePointer ∧
    Equal sampleValue samplePointer = true ∧
    elems samplePointer = [.pointer 1 "a"] ∧
    Contains sampleValue [.pointer 1 "a"] = false := by
  decide

/-- C15 fails as stated: with `s` the set holding a pointer to the `yourType`
value `a` and `t` the set holding that value, `s.IsProperSuperset(t)` is true
and `t.IsProperSubset(s)` is false. -/
theorem C15_counterexample :
    KeyConsistent samplePointer ∧ KeyConsistent sampleValue ∧
    IsProperSuperset samplePointer sampleValue = true ∧
    IsProperSubset sampleValue samplePointer = false := by
  decide

/-- C13, witness: two sets of `String` elements, whose `Equal` is symmetric. -/
theorem C13_witness :
    KeyConsistent sampleStrings ∧ KeyConsistent sampleString ∧
    (Equal sampleStrings sampleString = true ↔
      Cardinality sampleStrings = Cardinality sampleString ∧
        (∀ e ∈ elems sampleStrings, Contains sampleString [e] = true) ∧
        (∀ e ∈ elems sampleString, Contains sampleStrings [e] = true)) :=
  ⟨by decide, by decide,
    (C13_equal_iff sampleStrings sampleString).2 (by decide) (by decide) (by decide)⟩

/-- C14, witness: the set holding `"test"` is a subset of the set holding `"1"`
and `"test"`. -/
theorem C14_witness : IsSubset sampleString sampleStrings = true :=
  (C14_isSubset_iff sampleString sampleStrings).1.mpr (by decide)

/-- C15, witness: two sets of `String` elements, whose `Equal` is symmetric. -/
theorem C15_witness :
    KeyConsistent sampleStrings ∧ KeyConsistent sampleString ∧
    IsProperSuperset sampleStrings sampleString = IsProperSubset sampleString sampleStrings :=
  ⟨by decide, by decide,
    (C15_superset_mirror sampleStrings sampleString).2.2.2.2 (by decide) (by decide)
      (by decide)⟩

/-- C18, witness: clearing the set holding `"1"` and `"test"`. -/
theorem C18_witness : Contains (Clear sampleStrings) [(⟨"test"⟩ : GoString)] = false :=
  (C18_clear_empties sampleStrings).2.1 ⟨"test"⟩

end threadUnsafeSet

/-! ## The loop of Each on unchanged entries, and ToSlice -/

namespace threadUnsafeSet

section

variable {T σ : Type}

end

section

variable {T : Type} [EqualKeyer T]

theorem nodup_elems (s : threadUnsafeSet T) (hs : KeyConsistent s) : (elems s).Nodup := by
  have hk : (elems s).map EqualKeyer.Key = s.entries.map Prod.fst := by
    simp only [elems, List.map_map]
    apply List.map_congr_left
    intro p hp
    exact (hs p hp).symm
  apply List.Nodup.of_map EqualKeyer.Key
  rw [hk]
  exact s.nodup

theorem toSlice_eq {T : Type} (s : threadUnsafeSet T) : ToSlice s = elems s := by
  have : ∀ (l : List (String × T)) (acc : List T),
      l.foldl (fun elems p => elems ++ [p.2]) acc = acc ++ l.map Prod.snd := by
    intro l
    induction l with
    | nil => simp
    | cons p l ih => intro acc; simp [ih]
  simp [ToSlice, elems, this]

theorem contains_self_iff (s : threadUnsafeSet T) (hs : KeyConsistent s) (e : T)
    (he : e ∈ elems s) : Contains s [e] = true ↔ EqualKeyer.Equal e e = true := by
  rw [contains_single_eq, (mem_elems_iff s hs e).mp he]

/-- C17, as amended: `ToSlice()` is the list of the stored elements in
enumeration order, one slot per entry, so its length is `Cardinality()`; for a
set that stores every element under its key no element occurs twice, and an
element of the slice is `Contains`-true in the set exactly when it is `Equal`
to itself; `ToSlice` leaves the memory, and so the set, unchanged. -/
theorem C17_toSlice (s : threadUnsafeSet T) :
    ToSlice s = elems s ∧
    (ToSlice s).length = Cardinality s ∧
    (KeyConsistent s → (ToSlice s).Nodup ∧
      ∀ e ∈ ToSlice s, (Contains s [e] = true ↔ EqualKeyer.Equal e e = true)) ∧
    (∀ (h : Mem T) (a : Nat), (Mem.ToSlice h a).1 = h) := by
  refine ⟨toSlice_eq s, ?_, ?_, fun _ _ => rfl⟩
  · rw [toSlice_eq]
    simp [elems, Cardinality, GoMap.len]
  · intro hs
    rw [toSlice_eq]
    exact ⟨nodup_elems s hs, fun e he => contains_self_iff s hs e he⟩

end

/-- C17 fails as stated: the slice of the set of one `*yourType` element holds
that element, and the set does not contain it. -/
theorem C17_counterexample :
    KeyConsistent sampleBob ∧ ToSlice sampleBob = [⟨1, "Bob"⟩] ∧
    Contains sampleBob [⟨1, "Bob"⟩] = false := by
  decide

/-- C17, witness: the slice of the set holding `"1"` and `"test"`. -/
theorem C17_witness :
    KeyConsistent sampleStrings ∧
    ∀ e ∈ ToSlice sampleStrings, (Contains sampleStrings [e] = true ↔
      EqualKeyer.Equal e e = true) :=
  ⟨by decide, ((C17_toSlice sampleStrings).2.2.1 (by decide)).2⟩

end threadUnsafeSet

/-! ## Each -/

namespace Mem

section

variable {T : Type}

end

section

variable {T : Type} [EqualKeyer T]

end

section

variable {T : Type}

end

end Mem

namespace threadUnsafeSet

section

variable {T : Type} [EqualKeyer T]

/-- The loop `for _, v := range i { s.Add(v) }`: the lookup of a key in the
result is the last element of `i` with that key, or else what `s` held. -/
theorem get?_foldl_add_values (i : List T) (s : threadUnsafeSet T) (k : String) :
    (i.foldl (fun s v => (Add s v).1) s).get? k =
      match i.reverse.find? (fun v => EqualKeyer.Key v == k) with
      | some v => some v
      | none => s.get? k := by
  induction i generalizing s with
  | nil => simp
  | cons v i ih =>
    rw [List.foldl_cons, ih, List.reverse_cons, List.find?_append]
    cases hfind : i.reverse.find? (fun v => EqualKeyer.Key v == k) with
    | some w => simp
    | none =>
      by_cases hk : EqualKeyer.Key v = k
      · subst hk
        simp [List.find?_cons, add_fst, GoMap.get?_set_self]
      · have : (EqualKeyer.Key v == k) = false := by simpa using hk
        simp only [Option.none_or, List.find?_cons, this, List.find?_nil]
        rw [add_fst, GoMap.get?_set_ne s _ k v (fun e => hk e.symm)]

/-- C19: when the decoder fails on the input, `UnmarshalJSON` returns that
error and the set is exactly as it was before the call. -/
theorem C19_unmarshal_failure_atomic {ε : Type} (decode : List Nat → Except ε (List T))
    (s : threadUnsafeSet T) (b : List Nat) (err : ε) (h : decode b = .error err) :
    (UnmarshalJSON decode s b).2 = some err ∧ (UnmarshalJSON decode s b).1 = s := by
  simp [UnmarshalJSON, h]

/-- C20, as amended: when the input decodes to the slice `i`, `UnmarshalJSON`
returns no error and adds the decoded elements to what the set held: under
every key the set then holds the last element of `i` with that key, and where
`i` has none, the element it held before; a set that was empty before the call
holds exactly the decoded elements. -/
theorem C20_unmarshal_adds {ε : Type} (decode : List Nat → Except ε (List T))
    (s : threadUnsafeSet T) (b : List Nat) (i : List T) (h : decode b = .ok i) :
    (UnmarshalJSON decode s b).2 = none ∧
    (∀ k, (UnmarshalJSON decode s b).1.get? k =
      match i.reverse.find? (fun v => EqualKeyer.Key v == k) with
      | some v => some v
      | none => s.get? k) ∧
    (Cardinality s = 0 → ∀ k, (UnmarshalJSON decode s b).1.get? k =
      i.reverse.find? (fun v => EqualKeyer.Key v == k)) := by
  have hres : UnmarshalJSON decode s b = (i.foldl (fun s v => (Add s v).1) s, none) := by
    simp [UnmarshalJSON, h]
  rw [hres]
  refine ⟨rfl, fun k => get?_foldl_add_values i s k, ?_⟩
  intro hcard k
  show (i.foldl (fun s v => (Add s v).1) s).get? k = _
  rw [get?_foldl_add_values, (GoMap.len_eq_zero_iff s).mp hcard k]
  cases i.reverse.find? (fun v => EqualKeyer.Key v == k) <;> rfl

end

/-- C20 fails as stated: unmarshalling `["new"]` into the set that holds
`"test"` leaves a set of two elements that still holds `"test"`. -/
theorem C20_counterexample :
    sampleDecode sampleJSON = .ok [⟨"new"⟩] ∧
    (UnmarshalJSON sampleDecode sampleString sampleJSON).1.get? "test" = some ⟨"test"⟩ ∧
    Cardinality (UnmarshalJSON sampleDecode sampleString sampleJSON).1 = 2 :=
  ⟨rfl, by decide, by decide⟩

/-- C19, witness: the truncated text fails to decode and the set holding
`"test"` is unchanged. -/
theorem C19_witness :
    sampleDecode sampleTruncatedJSON = .error "unexpected EOF" ∧
    (UnmarshalJSON sampleDecode sampleString sampleTruncatedJSON).2 = some "unexpected EOF" ∧
    (UnmarshalJSON sampleDecode sampleString sampleTruncatedJSON).1 = sampleString :=
  ⟨rfl, C19_unmarshal_failure_atomic sampleDecode sampleString sampleTruncatedJSON
    "unexpected EOF" rfl⟩

/-- C20, witness: unmarshalling `["new"]` into the set that holds `"test"`. -/
theorem C20_witness :
    sampleDecode sampleJSON = .ok [⟨"new"⟩] ∧
    (UnmarshalJSON sampleDecode sampleString sampleJSON).1.get? "new" = some ⟨"new"⟩ ∧
    (UnmarshalJSON sampleDecode sampleString sampleJSON).1.get? "test" =
      sampleString.get? "test" :=
  ⟨rfl, (C20_unmarshal_adds sampleDecode sampleString sampleJSON [⟨"new"⟩] rfl).2.1 "new",
    (C20_unmarshal_adds sampleDecode sampleString sampleJSON [⟨"new"⟩] rfl).2.1 "test"⟩

end threadUnsafeSet

/-! ## Difference and SymmetricDifference -/

namespace threadUnsafeSet

section

variable {T : Type} [EqualKeyer T]

theorem keyConsistent_make : KeyConsistent (newThreadUnsafeSet : threadUnsafeSet T) := by
  intro p hp
  cases hp

theorem keyConsistent_add (s : threadUnsafeSet T) (hs : KeyConsistent s) (v : T) :
    KeyConsistent (Add s v).1 := by
  intro p hp
  simp only [add_fst, GoMap.set, List.mem_cons, List.mem_filter] at hp
  rcases hp with rfl | hp
  · rfl
  · exact hs p hp.1

theorem keyConsistent_foldl_add_if (c : T → Bool) (l : List (String × T))
    (acc : threadUnsafeSet T) (hacc : KeyConsistent acc) :
    KeyConsistent (l.foldl (fun a p => if c p.2 = true then (Add a p.2).1 else a) acc) := by
  induction l generalizing acc with
  | nil => exact hacc
  | cons p l ih =>
    rw [List.foldl_cons]
    apply ih
    by_cases h : c p.2 = true
    · rw [if_pos h]; exact keyConsistent_add acc hacc p.2
    · rw [if_neg h]; exact hacc

theorem keyConsistent_foldl_add (l : List (String × T)) (acc : threadUnsafeSet T)
    (hacc : KeyConsistent acc) :
    KeyConsistent (l.foldl (fun a p => (Add a p.2).1) acc) := by
  have := keyConsistent_foldl_add_if (fun _ => true) l acc hacc
  simpa using this

theorem keyConsistent_difference (s t : threadUnsafeSet T) : KeyConsistent (Difference s t) := by
  have := keyConsistent_foldl_add_if (fun v => !Contains t [v]) s.entries newThreadUnsafeSet
    keyConsistent_make
  simpa [Difference] using this

theorem keyConsistent_union (s t : threadUnsafeSet T) : KeyConsistent (Union s t) :=
  keyConsistent_foldl_add _ _ (keyConsistent_foldl_add _ _ keyConsistent_make)

theorem keyConsistent_intersect (s t : threadUnsafeSet T) : KeyConsistent (Intersect s t) := by
  unfold Intersect
  split_ifs
  · exact keyConsistent_foldl_add_if (fun v => Contains t [v]) _ _ keyConsistent_make
  · exact keyConsistent_foldl_add_if (fun v => Contains s [v]) _ _ keyConsistent_make

theorem get?_difference (s t : threadUnsafeSet T) (hs : KeyConsistent s) (k : String) :
    (Difference s t).get? k = match s.get? k with
      | some v => if Contains t [v] = true then none else some v
      | none => none := by
  have := get?_foldl_add_if (fun v => !Contains t [v]) s hs newThreadUnsafeSet k
  simp only [Bool.not_eq_true'] at this
  rw [Difference]
  simp only [Bool.not_eq_true']
  rw [this]
  cases s.get? k with
  | none => rfl
  | some v => cases hc : Contains t [v] <;> simp [newThreadUnsafeSet, GoMap.get?_make, hc]

/-- The probe `x`, stored in a set under the key `k`, against another set. -/
theorem contains_of_get? (s t : threadUnsafeSet T) (hs : KeyConsistent s) (k : String) (x : T)
    (h : s.get? k = some x) :
    Contains t [x] = match t.get? k with
      | some y => EqualKeyer.Equal y x
      | none => false := by
  rw [contains_single_eq, key_of_get? s hs k x h]

theorem get?_difference_eq_some (s t : threadUnsafeSet T) (hs : KeyConsistent s) (k : String)
    (x : T) :
    (Difference s t).get? k = some x ↔ s.get? k = some x ∧ Contains t [x] = false := by
  rw [get?_difference s t hs]
  cases hg : s.get? k with
  | none => simp
  | some v =>
    by_cases hc : Contains t [v] = true
    · simp only [hc, if_true, Option.some.injEq]
      constructor
      · intro h; cases h
      · rintro ⟨h, h2⟩
        subst h
        rw [hc] at h2
        cases h2
    · have hc' : Contains t [v] = false := by simpa using hc
      simp only [hc', Bool.false_eq_true, if_false, Option.some.injEq]
      constructor
      · intro h; subst h; exact ⟨rfl, hc'⟩
      · intro h; exact h.1

/-- C11, as amended: for sets that store every element under its key,
`s.Difference(t).Intersect(t)` is empty whenever `Intersect` iterates the
difference (its cardinality is below that of `t`); when it iterates `t` it is
empty exactly when no element `x` of `s` and element `e` of `t` under one key
have `x.Equal(e)` true and `e.Equal(x)` false. -/
theorem C11_difference_intersect_empty (s t : threadUnsafeSet T) (hs : KeyConsistent s)
    (ht : KeyConsistent t) :
    (Cardinality (Difference s t) < Cardinality t →
      Cardinality (Intersect (Difference s t) t) = 0) ∧
    (¬ Cardinality (Difference s t) < Cardinality t →
      (Cardinality (Intersect (Difference s t) t) = 0 ↔
        ∀ x ∈ elems s, ∀ e ∈ elems t, EqualKeyer.Key x = EqualKeyer.Key e →
          EqualKeyer.Equal x e = true → EqualKeyer.Equal e x = true)) := by
  have hd := keyConsistent_difference s t
  constructor
  · intro hlt
    rw [Cardinality, GoMap.len_eq_zero_iff]
    intro k
    rw [get?_intersect_lt _ t hd hlt]
    cases hg : (Difference s t).get? k with
    | none => rfl
    | some v =>
      have := ((get?_difference_eq_some s t hs k v).mp hg).2
      simp [this]
  · intro hge
    rw [Cardinality, GoMap.len_eq_zero_iff]
    constructor
    · intro h x hx e he hkey hxe
      have hsx := (mem_elems_iff s hs x).mp hx
      have hte := (mem_elems_iff t ht e).mp he
      have hk := h (EqualKeyer.Key e)
      rw [get?_intersect_ge _ t ht hge, hte] at hk
      have hcd : Contains (Difference s t) [e] = false := by
        cases hc : Contains (Difference s t) [e]
        · rfl
        · simp [hc] at hk
      cases hex : EqualKeyer.Equal e x
      · exfalso
        have hd' : (Difference s t).get? (EqualKeyer.Key e) = some x := by
          rw [get?_difference_eq_some s t hs, ← hkey]
          refine ⟨hsx, ?_⟩
          rw [contains_single_eq, hkey, hte]
          exact hex
        have : Contains (Difference s t) [e] = true := by
          rw [contains_single]
          exact ⟨x, hd', hxe⟩
        rw [hcd] at this
        cases this
      · rfl
    · intro h k
      rw [get?_intersect_ge _ t ht hge]
      cases hte : t.get? k with
      | none => rfl
      | some e =>
        have hcd : Contains (Difference s t) [e] = false := by
          cases hc : Contains (Difference s t) [e]
          · rfl
          · exfalso
            obtain ⟨x, hx, hxe⟩ := (contains_single _ e).mp hc
            obtain ⟨hsx, hcx⟩ := (get?_difference_eq_some s t hs _ x).mp hx
            have hke := key_of_get? t ht k e hte
            have hkx := key_of_get? s hs _ x hsx
            have he : e ∈ elems t :=
              List.mem_map.mpr ⟨_, (GoMap.get?_eq_some_iff t k e).mp hte, rfl⟩
            have hxm : x ∈ elems s :=
              List.mem_map.mpr ⟨_, (GoMap.get?_eq_some_iff s _ x).mp hsx, rfl⟩
            have hex := h x hxm e he hkx hxe
            rw [contains_single_eq, hkx, hke, hte] at hcx
            simp [hex] at hcx
        simp [hcd]

end

/-- C11 fails as stated: with `s` the set holding a pointer to the `yourType`
value `a` and `t` the set holding that value, the difference keeps the pointer
(the value, as receiver, rejects a pointer probe), `Intersect` iterates `t`,
and the difference contains the value (the pointer, as receiver, accepts it). -/
theorem C11_counterexample :
    KeyConsistent samplePointer ∧ KeyConsistent sampleValue ∧
    elems (Difference samplePointer sampleValue) = [.pointer 1 "a"] ∧
    elems (Intersect (Difference samplePointer sampleValue) sampleValue) = [.value "a"] ∧
    Cardinality (Intersect (Difference samplePointer sampleValue) sampleValue) = 1 := by
  decide

/-- C11, witness: two sets of `String` elements, in both orders, so that
`Intersect` iterates the difference in one and the argument in the other. -/
theorem C11_witness :
    (KeyConsistent sampleString ∧ KeyConsistent sampleStrings ∧
      Cardinality (Difference sampleString sampleStrings) < Cardinality sampleStrings ∧
      Cardinality (Intersect (Difference sampleString sampleStrings) sampleStrings) = 0) ∧
    (¬ Cardinality (Difference sampleStrings sampleString) < Cardinality sampleString ∧
      Cardinality (Intersect (Difference sampleStrings sampleString) sampleString) = 0) :=
  ⟨⟨by decide, by decide, by decide,
      (C11_difference_intersect_empty sampleString sampleStrings (by decide) (by decide)).1
        (by decide)⟩,
    by decide,
    ((C11_difference_intersect_empty sampleStrings sampleString (by decide) (by decide)).2
      (by decide)).mpr (by decide)⟩

end threadUnsafeSet

namespace threadUnsafeSet

section

variable {T : Type} [EqualKeyer T]

/-- The lookup of a key in `s.SymmetricDifference(t)`, from what `s` and `t`
hold under that key. -/
theorem get?_symmetricDifference (s t : threadUnsafeSet T) (hs : KeyConsistent s)
    (ht : KeyConsistent t) (k : String) :
    (SymmetricDifference s t).get? k =
      match s.get? k, t.get? k with
      | none, none => none
      | some x, none => some x
      | none, some y => some y
      | some x, some y =>
        if EqualKeyer.Equal x y = true then
          (if EqualKeyer.Equal y x = true then none else some x)
        else some y := by
  simp only [SymmetricDifference]
  rw [get?_union _ _ (keyConsistent_difference s t) (keyConsistent_difference t s),
    get?_difference t s ht, get?_difference s t hs]
  cases hsk : s.get? k with
  | none =>
    cases htk : t.get? k with
    | none => rfl
    | some y =>
      have hc : Contains s [y] = false := by rw [contains_of_get? t s ht k y htk, hsk]
      simp [hc]
  | some x =>
    cases htk : t.get? k with
    | none =>
      have hc : Contains t [x] = false := by rw [contains_of_get? s t hs k x hsk, htk]
      simp [hc]
    | some y =>
      have hcx : Contains t [x] = EqualKeyer.Equal y x := by
        rw [contains_of_get? s t hs k x hsk, htk]
      have hcy : Contains s [y] = EqualKeyer.Equal x y := by
        rw [contains_of_get? t s ht k y htk, hsk]
      simp only [hcx, hcy]
      cases EqualKeyer.Equal x y <;> cases EqualKeyer.Equal y x <;> simp

/-- The lookup of a key in `s.Union(t).Difference(s.Intersect(t))`, from what
`s` and `t` hold under that key and from the operand `Intersect` iterates. -/
theorem get?_union_difference_intersect (s t : threadUnsafeSet T) (hs : KeyConsistent s)
    (ht : KeyConsistent t) (k : String) :
    (Difference (Union s t) (Intersect s t)).get? k =
      match s.get? k, t.get? k with
      | none, none => none
      | some x, none => some x
      | none, some y => some y
      | some x, some y =>
        if Cardinality s < Cardinality t then
          (if EqualKeyer.Equal y x = true ∧ EqualKeyer.Equal x y = true then none else some y)
        else
          (if EqualKeyer.Equal x y = true ∧ EqualKeyer.Equal y y = true then none else some y) := by
  have hu := keyConsistent_union s t
  rw [get?_difference _ _ hu, get?_union s t hs ht]
  have hI : ∀ u, (Union s t).get? k = some u →
      Contains (Intersect s t) [u] = match (Intersect s t).get? k with
        | some z => EqualKeyer.Equal z u
        | none => false :=
    fun u hget => contains_of_get? (Union s t) (Intersect s t) hu k u hget
  rw [get?_union s t hs ht] at hI
  cases hsk : s.get? k with
  | none =>
    cases htk : t.get? k with
    | none => rfl
    | some y =>
      have hcy : Contains s [y] = false := by rw [contains_of_get? t s ht k y htk, hsk]
      have hin : (Intersect s t).get? k = none := by
        by_cases hlt : Cardinality s < Cardinality t
        · rw [get?_intersect_lt s t hs hlt, hsk]
        · rw [get?_intersect_ge s t ht hlt, htk]
          simp [hcy]
      have := hI y (by rw [htk])
      rw [hin] at this
      simp [this]
  | some x =>
    cases htk : t.get? k with
    | none =>
      have hcx : Contains t [x] = false := by rw [contains_of_get? s t hs k x hsk, htk]
      have hin : (Intersect s t).get? k = none := by
        by_cases hlt : Cardinality s < Cardinality t
        · rw [get?_intersect_lt s t hs hlt, hsk]
          simp [hcx]
        · rw [get?_intersect_ge s t ht hlt, htk]
      have := hI x (by rw [htk, hsk])
      rw [hin] at this
      simp [this]
    | some y =>
      have hcx : Contains t [x] = EqualKeyer.Equal y x := by
        rw [contains_of_get? s t hs k x hsk, htk]
      have hcy : Contains s [y] = EqualKeyer.Equal x y := by
        rw [contains_of_get? t s ht k y htk, hsk]
      have hc := hI y (by rw [htk])
      by_cases hlt : Cardinality s < Cardinality t
      · rw [get?_intersect_lt s t hs hlt, hsk] at hc
        simp only [hcx] at hc
        simp only [hlt, if_true]
        rw [hc]
        cases h1 : EqualKeyer.Equal y x <;> cases h2 : EqualKeyer.Equal x y <;> simp [h2]
      · rw [get?_intersect_ge s t ht hlt, htk] at hc
        simp only [hcy] at hc
        simp only [hlt, if_false]
        rw [hc]
        cases h1 : EqualKeyer.Equal x y <;> cases h2 : EqualKeyer.Equal y y <;> simp [h2]

theorem equal_of_get?_eq (a b : threadUnsafeSet T) (ha : KeyConsistent a)
    (h : ∀ k, a.get? k = b.get? k) (hrefl : ∀ e ∈ elems a, EqualKeyer.Equal e e = true) :
    Equal a b = true := by
  rw [equal_iff]
  refine ⟨GoMap.len_eq_of_get? a b (fun k => by rw [h k]), ?_⟩
  intro p hp
  have he : p.2 ∈ elems a := List.mem_map.mpr ⟨p, hp, rfl⟩
  have hget := (mem_elems_iff a ha p.2).mp he
  rw [contains_single]
  exact ⟨p.2, by rw [← h]; exact hget, hrefl p.2 he⟩

/-- C12, as amended: for sets that store every element under its key, when
every element of `s` and of `t` is `Equal` to itself and `Equal` gives the same
answer in both directions between an element of `s` and an element of `t`
under one key, `s.SymmetricDifference(t)` holds under every key the same
element as `s.Union(t).Difference(s.Intersect(t))` and `Equal` of the two is
true. -/
theorem C12_symmetric_difference (s t : threadUnsafeSet T) (hs : KeyConsistent s)
    (ht : KeyConsistent t)
    (hrefl : ∀ e ∈ elems s ++ elems t, EqualKeyer.Equal e e = true)
    (hsymm : ∀ x ∈ elems s, ∀ y ∈ elems t, EqualKeyer.Key x = EqualKeyer.Key y →
      EqualKeyer.Equal x y = EqualKeyer.Equal y x) :
    SymmetricDifference s t = Union (Difference s t) (Difference t s) ∧
    (∀ k, (SymmetricDifference s t).get? k =
      (Difference (Union s t) (Intersect s t)).get? k) ∧
    Equal (SymmetricDifference s t) (Difference (Union s t) (Intersect s t)) = true := by
  have hpoint : ∀ k, (SymmetricDifference s t).get? k =
      (Difference (Union s t) (Intersect s t)).get? k := by
    intro k
    rw [get?_symmetricDifference s t hs ht, get?_union_difference_intersect s t hs ht]
    cases hsk : s.get? k with
    | none => cases htk : t.get? k <;> rfl
    | some x =>
      cases htk : t.get? k with
      | none => rfl
      | some y =>
        have hx : x ∈ elems s := List.mem_map.mpr ⟨_, (GoMap.get?_eq_some_iff s k x).mp hsk, rfl⟩
        have hy : y ∈ elems t := List.mem_map.mpr ⟨_, (GoMap.get?_eq_some_iff t k y).mp htk, rfl⟩
        have hkey : EqualKeyer.Key x = EqualKeyer.Key y := by
          rw [key_of_get? s hs k x hsk, key_of_get? t ht k y htk]
        have hyy := hrefl y (List.mem_append_right _ hy)
        have hxy := hsymm x hx y hy hkey
        simp only [hyy, ← hxy]
        cases EqualKeyer.Equal x y <;> simp
  have hsd : KeyConsistent (SymmetricDifference s t) := keyConsistent_union _ _
  refine ⟨rfl, hpoint, equal_of_get?_eq _ _ hsd hpoint ?_⟩
  intro e he
  have hget := (mem_elems_iff _ hsd e).mp he
  rw [get?_symmetricDifference s t hs ht] at hget
  apply hrefl
  cases hsk : s.get? (EqualKeyer.Key e) with
  | none =>
    cases htk : t.get? (EqualKeyer.Key e) with
    | none => rw [hsk, htk] at hget; cases hget
    | some y =>
      rw [hsk, htk] at hget
      cases hget
      exact List.mem_append_right _ (List.mem_map.mpr ⟨_, (GoMap.get?_eq_some_iff t _ _).mp htk, rfl⟩)
  | some x =>
    have hx : x ∈ elems s := List.mem_map.mpr ⟨_, (GoMap.get?_eq_some_iff s _ x).mp hsk, rfl⟩
    cases htk : t.get? (EqualKeyer.Key e) with
    | none =>
      rw [hsk, htk] at hget
      cases hget
      exact List.mem_append_left _ hx
    | some y =>
      have hy : y ∈ elems t := List.mem_map.mpr ⟨_, (GoMap.get?_eq_some_iff t _ y).mp htk, rfl⟩
      rw [hsk, htk] at hget
      simp only at hget
      split_ifs at hget
      · cases hget; exact List.mem_append_left _ hx
      · cases hget; exact List.mem_append_right _ hy

end

/-- C12 fails as stated: for the set of one `*yourType` element and the empty
set both sides hold that element, and `Equal` of the two sides is false
because the element is not `Equal` to itself; for the set holding a pointer to
the `yourType` value `a` and the set holding that value, the left side holds
the pointer and the right side is empty. -/
theorem C12_counterexample :
    (KeyConsistent sampleBob ∧
      elems (SymmetricDifference sampleBob newThreadUnsafeSet) = [⟨1, "Bob"⟩] ∧
      elems (Difference (Union sampleBob newThreadUnsafeSet)
        (Intersect sampleBob newThreadUnsafeSet)) = [⟨1, "Bob"⟩] ∧
      Equal (SymmetricDifference sampleBob newThreadUnsafeSet)
        (Difference (Union sampleBob newThreadUnsafeSet)
          (Intersect sampleBob newThreadUnsafeSet)) = false) ∧
    (KeyConsistent samplePointer ∧ KeyConsistent sampleValue ∧
      elems (SymmetricDifference samplePointer sampleValue) = [.pointer 1 "a"] ∧
      elems (Difference (Union samplePointer sampleValue)
        (Intersect samplePointer sampleValue)) = [] ∧
      Equal (SymmetricDifference samplePointer sampleValue)
        (Difference (Union samplePointer sampleValue)
          (Intersect samplePointer sampleValue)) = false) := by
  decide

/-- C12, witness: the sets holding `"1"`, `"test"` and holding `"test"`. -/
theorem C12_witness :
    KeyConsistent sampleStrings ∧ KeyConsistent sampleString ∧
    Equal (SymmetricDifference sampleStrings sampleString)
      (Difference (Union sampleStrings sampleString)
        (Intersect sampleStrings sampleString)) = true :=
  ⟨by decide, by decide,
    (C12_symmetric_difference sampleStrings sampleString (by decide) (by decide) (by decide)
      (by decide)).2.2⟩

end threadUnsafeSet

/-! ## The iterated operand of Intersect -/

namespace threadUnsafeSet

section

variable {T : Type} [EqualKeyer T]

theorem elems_add_subset (a : threadUnsafeSet T) (v e : T) (h : e ∈ elems (Add a v).1) :
    e = v ∨ e ∈ elems a := by
  simp only [elems, add_fst, GoMap.set, List.map_cons, List.mem_cons, List.mem_map,
    List.mem_filter] at h ⊢
  rcases h with h | ⟨p, ⟨hp, _⟩, hpe⟩
  · exact Or.inl h
  · exact Or.inr ⟨p, hp, hpe⟩

theorem mem_elems_foldl_add_if (c : T → Bool) (l : List (String × T)) (acc : threadUnsafeSet T)
    (e : T) (h : e ∈ elems (l.foldl (fun a p => if c p.2 = true then (Add a p.2).1 else a) acc)) :
    e ∈ elems acc ∨ (e ∈ l.map Prod.snd ∧ c e = true) := by
  induction l generalizing acc with
  | nil => exact Or.inl h
  | cons p l ih =>
    rw [List.foldl_cons] at h
    rcases ih _ h with h1 | ⟨h1, h2⟩
    · by_cases hc : c p.2 = true
      · rw [if_pos hc] at h1
        rcases elems_add_subset acc p.2 e h1 with rfl | h3
        · exact Or.inr ⟨by simp, hc⟩
        · exact Or.inl h3
      · rw [if_neg hc] at h1
        exact Or.inl h1
    · exact Or.inr ⟨List.mem_cons_of_mem _ h1, h2⟩

theorem get?_intersect_lt_iff (s t : threadUnsafeSet T) (hs : KeyConsistent s)
    (h : Cardinality s < Cardinality t) (k : String) (v : T) :
    (Intersect s t).get? k = some v ↔ (s.get? k = some v ∧ Contains t [v] = true) := by
  rw [get?_intersect_lt s t hs h]
  cases hg : s.get? k with
  | none => simp
  | some w =>
    by_cases hc : Contains t [w] = true
    · simp only [hc, if_true, Option.some.injEq]
      constructor
      · intro h; subst h; exact ⟨rfl, hc⟩
      · intro h; exact h.1
    · have hc' : Contains t [w] = false := by simpa using hc
      simp only [hc', Bool.false_eq_true, if_false, Option.some.injEq]
      constructor
      · intro h; cases h
      · rintro ⟨h, hv⟩
        subst h
        rw [hc'] at hv
        cases hv

theorem get?_intersect_ge_iff (s t : threadUnsafeSet T) (ht : KeyConsistent t)
    (h : ¬ Cardinality s < Cardinality t) (k : String) (v : T) :
    (Intersect s t).get? k = some v ↔ (t.get? k = some v ∧ Contains s [v] = true) := by
  rw [get?_intersect_ge s t ht h]
  cases hg : t.get? k with
  | none => simp
  | some w =>
    by_cases hc : Contains s [w] = true
    · simp only [hc, if_true, Option.some.injEq]
      constructor
      · intro h; subst h; exact ⟨rfl, hc⟩
      · intro h; exact h.1
    · have hc' : Contains s [w] = false := by simpa using hc
      simp only [hc', Bool.false_eq_true, if_false, Option.some.injEq]
      constructor
      · intro h; cases h
      · rintro ⟨h, hv⟩
        subst h
        rw [hc'] at hv
        cases hv

/-- C26, as amended: `Intersect` iterates the receiver when its cardinality is
strictly below that of the argument and the argument otherwise, ties
included.  Every element stored in `s.Intersect(t)` is an element of the
iterated operand that the other operand contains; for sets that store every
element under its key the result holds under a key exactly the element the
iterated operand holds there, when the other operand contains it, so with equal
cardinalities every element of the result is the one stored in `t`. -/
theorem C26_intersect_iterated_operand (s t : threadUnsafeSet T) :
    (Cardinality s < Cardinality t →
      (∀ e ∈ elems (Intersect s t), e ∈ elems s ∧ Contains t [e] = true) ∧
      (KeyConsistent s → ∀ k v, (Intersect s t).get? k = some v ↔
        (s.get? k = some v ∧ Contains t [v] = true))) ∧
    (¬ Cardinality s < Cardinality t →
      (∀ e ∈ elems (Intersect s t), e ∈ elems t ∧ Contains s [e] = true) ∧
      (KeyConsistent t → ∀ k v, (Intersect s t).get? k = some v ↔
        (t.get? k = some v ∧ Contains s [v] = true))) ∧
    (Cardinality s = Cardinality t → KeyConsistent t →
      ∀ k v, (Intersect s t).get? k = some v → t.get? k = some v) := by
  refine ⟨fun hlt => ⟨?_, fun hs k v => get?_intersect_lt_iff s t hs hlt k v⟩,
    fun hge => ⟨?_, fun ht k v => get?_intersect_ge_iff s t ht hge k v⟩, ?_⟩
  · intro e he
    simp only [Intersect, if_pos hlt] at he
    rcases mem_elems_foldl_add_if (fun v => Contains t [v]) s.entries _ e he with h | h
    · cases h
    · exact h
  · intro e he
    simp only [Intersect, if_neg hge] at he
    rcases mem_elems_foldl_add_if (fun v => Contains s [v]) t.entries _ e he with h | h
    · cases h
    · exact h
  · intro heq ht k v hv
    exact ((get?_intersect_ge_iff s t ht (by omega) k v).mp hv).1

end

/-- C26 fails as stated: the set holding a pointer to the `yourType` value `a`
and the set holding that value have equal cardinality, and the intersection
holds the value, the element of the argument, not the pointer stored in the
receiver. -/
theorem C26_counterexample :
    KeyConsistent samplePointer ∧ KeyConsistent sampleValue ∧
    Cardinality samplePointer = Cardinality sampleValue ∧
    (Intersect samplePointer sampleValue).get? "a" = some (.value "a") ∧
    samplePointer.get? "a" = some (.pointer 1 "a") ∧
    sampleValue.get? "a" = some (.value "a") := by
  decide

/-- C26, witness: two sets of equal cardinality; the element of the result is
the one stored in the argument. -/
theorem C26_witness :
    Cardinality samplePointer = Cardinality sampleValue ∧ KeyConsistent sampleValue ∧
    sampleValue.get? "a" = some (.value "a") :=
  ⟨by decide, by decide,
    (C26_intersect_iterated_operand samplePointer sampleValue).2.2 (by decide) (by decide)
      "a" (.value "a") (by decide)⟩

end threadUnsafeSet

/-! ## Key consistency of reachable sets -/

namespace threadUnsafeSet

section

variable {T : Type} [EqualKeyer T]

theorem keyConsistent_delete (s : threadUnsafeSet T) (hs : KeyConsistent s) (k : String) :
    KeyConsistent (s.delete k) := by
  intro p hp
  simp only [GoMap.delete, List.mem_filter] at hp
  exact hs p hp.1

theorem keyConsistent_pop (s : threadUnsafeSet T) (hs : KeyConsistent s) :
    KeyConsistent (Pop s).1 := by
  unfold Pop
  split
  · exact hs
  · exact keyConsistent_delete s hs _

theorem keyConsistent_foldl_add_values (i : List T) (s : threadUnsafeSet T)
    (hs : KeyConsistent s) : KeyConsistent (i.foldl (fun s v => (Add s v).1) s) := by
  induction i generalizing s with
  | nil => exact hs
  | cons v i ih => exact ih _ (keyConsistent_add s hs v)

theorem keyConsistent_unmarshal {ε : Type} (decode : List Nat → Except ε (List T))
    (s : threadUnsafeSet T) (b : List Nat) (hs : KeyConsistent s) :
    KeyConsistent (UnmarshalJSON decode s b).1 := by
  unfold UnmarshalJSON
  split
  · exact hs
  · exact keyConsistent_foldl_add_values _ s hs

theorem keyConsistent_clone (s : threadUnsafeSet T) : KeyConsistent (Clone s) :=
  keyConsistent_foldl_add _ _ keyConsistent_make

theorem keyConsistent_of_perm (s s' : threadUnsafeSet T) (hs : KeyConsistent s)
    (h : s.entries.Perm s'.entries) : KeyConsistent s' :=
  fun p hp => hs p (h.symm.subset hp)

theorem keyConsistent_of_reachable (s : threadUnsafeSet T) (h : Reachable s) :
    KeyConsistent s := by
  induction h with
  | empty => exact keyConsistent_make
  | add s v _ ih => exact keyConsistent_add s ih v
  | remove s v _ ih => exact keyConsistent_delete s ih _
  | pop s _ ih => exact keyConsistent_pop s ih
  | clear s _ _ => exact keyConsistent_make
  | unmarshal decode s b _ ih => exact keyConsistent_unmarshal decode s b ih
  | clone s _ _ => exact keyConsistent_clone s
  | union s t _ _ _ _ => exact keyConsistent_union s t
  | intersect s t _ _ _ _ => exact keyConsistent_intersect s t
  | difference s t _ _ _ _ => exact keyConsistent_difference s t
  | symmetricDifference s t _ _ _ _ => exact keyConsistent_union _ _
  | reorder s s' _ hp ih => exact keyConsistent_of_perm s s' ih hp

theorem reachable_foldl_add (i : List T) (s : threadUnsafeSet T) (hs : Reachable s) :
    Reachable (i.foldl (fun s v => (Add s v).1) s) := by
  induction i generalizing s with
  | nil => exact hs
  | cons v i ih => exact ih _ (Reachable.add s v hs)

theorem reachable_new (l : List T) : Reachable (NewThreadUnsafeSet l) :=
  reachable_foldl_add l _ Reachable.empty

theorem keys_elems (s : threadUnsafeSet T) (hs : KeyConsistent s) :
    (elems s).map EqualKeyer.Key = GoMap.keys s := by
  simp only [elems, GoMap.keys, List.map_map]
  apply List.map_congr_left
  intro p hp
  exact (hs p hp).symm

/-- C27: every reachable set, built from the empty set by `Add`, `Remove`,
`Pop`, `Clear` and `UnmarshalJSON`, or returned by `Clone`, `Union`,
`Intersect`, `Difference` or `SymmetricDifference` on reachable sets, in any
enumeration order, stores each element under the key of that element, holds
each stored element under its key, and has as cardinality the number of
distinct keys among its stored elements. -/
theorem C27_reachable_key_consistent (s : threadUnsafeSet T) (h : Reachable s) :
    KeyConsistent s ∧
    (∀ e ∈ elems s, s.get? (EqualKeyer.Key e) = some e) ∧
    (∀ k e, s.get? k = some e → k = EqualKeyer.Key e) ∧
    Cardinality s = ((elems s).map EqualKeyer.Key).dedup.length := by
  have hs := keyConsistent_of_reachable s h
  refine ⟨hs, fun e he => (mem_elems_iff s hs e).mp he,
    fun k e hke => (key_of_get? s hs k e hke).symm, ?_⟩
  have hd : (GoMap.keys s).dedup = GoMap.keys s := List.Nodup.dedup s.nodup
  rw [keys_elems s hs, hd]
  simp [Cardinality, GoMap.len, GoMap.keys]

end

/-- C27, witness: the set built by adding `"1"` and then `"test"` to the empty
set. -/
theorem C27_witness :
    Reachable sampleStrings ∧ KeyConsistent sampleStrings ∧
    Cardinality sampleStrings = ((elems sampleStrings).map EqualKeyer.Key).dedup.length :=
  ⟨reachable_new _, (C27_reachable_key_consistent sampleStrings (reachable_new _)).1,
    (C27_reachable_key_consistent sampleStrings (reachable_new _)).2.2.2⟩

end threadUnsafeSet

/-! ## Independence of the enumeration order -/

namespace threadUnsafeSet

theorem get?_of_perm {T : Type} (s s' : threadUnsafeSet T) (h : s.entries.Perm s'.entries)
    (k : String) : s.get? k = s'.get? k := by
  apply Option.ext
  intro v
  simp only [Option.mem_def]
  rw [GoMap.get?_eq_some_iff, GoMap.get?_eq_some_iff]
  exact h.mem_iff

theorem mem_entries_of_lookup {T : Type} (s s' : threadUnsafeSet T)
    (h : ∀ k, s.get? k = s'.get? k) (p : String × T) : p ∈ s.entries ↔ p ∈ s'.entries := by
  rw [← GoMap.get?_eq_some_iff s p.1 p.2, ← GoMap.get?_eq_some_iff s' p.1 p.2, h]

theorem card_of_lookup {T : Type} (s s' : threadUnsafeSet T)
    (h : ∀ k, s.get? k = s'.get? k) : Cardinality s = Cardinality s' :=
  GoMap.len_eq_of_get? s s' (fun k => by rw [h])

section

variable {T : Type} [EqualKeyer T]

theorem keyConsistent_of_lookup (s s' : threadUnsafeSet T) (hs : KeyConsistent s)
    (h : ∀ k, s.get? k = s'.get? k) : KeyConsistent s' :=
  fun p hp => hs p ((mem_entries_of_lookup s s' h p).mpr hp)

theorem contains_of_lookup (t t' : threadUnsafeSet T) (h : ∀ k, t.get? k = t'.get? k)
    (vs : List T) : Contains t vs = Contains t' vs := by
  induction vs with
  | nil => rfl
  | cons v vs ih => simp only [Contains, h, ih]

theorem all_contains_of_lookup (s s' t t' : threadUnsafeSet T)
    (hss : ∀ k, s.get? k = s'.get? k) (htt : ∀ k, t.get? k = t'.get? k) :
    s.entries.all (fun p => Contains t [p.2]) = s'.entries.all (fun p => Contains t' [p.2]) := by
  rw [Bool.eq_iff_iff]
  simp only [List.all_eq_true]
  constructor
  · intro h p hp
    rw [← contains_of_lookup t t' htt]
    exact h p ((mem_entries_of_lookup s s' hss p).mpr hp)
  · intro h p hp
    rw [contains_of_lookup t t' htt]
    exact h p ((mem_entries_of_lookup s s' hss p).mp hp)

theorem equal_of_lookup (s s' t t' : threadUnsafeSet T)
    (hss : ∀ k, s.get? k = s'.get? k) (htt : ∀ k, t.get? k = t'.get? k) :
    Equal s t = Equal s' t' := by
  simp only [Equal, card_of_lookup s s' hss, card_of_lookup t t' htt,
    all_contains_of_lookup s s' t t' hss htt]

theorem isSubset_of_lookup (s s' t t' : threadUnsafeSet T)
    (hss : ∀ k, s.get? k = s'.get? k) (htt : ∀ k, t.get? k = t'.get? k) :
    IsSubset s t = IsSubset s' t' := by
  simp only [IsSubset, card_of_lookup s s' hss, card_of_lookup t t' htt,
    all_contains_of_lookup s s' t t' hss htt]

theorem clone_of_lookup (s s' : threadUnsafeSet T) (hs : KeyConsistent s)
    (hss : ∀ k, s.get? k = s'.get? k) (k : String) :
    (Clone s).get? k = (Clone s').get? k := by
  rw [get?_clone s hs, get?_clone s' (keyConsistent_of_lookup s s' hs hss), hss]

theorem union_of_lookup (s s' t t' : threadUnsafeSet T) (hs : KeyConsistent s)
    (ht : KeyConsistent t) (hss : ∀ k, s.get? k = s'.get? k)
    (htt : ∀ k, t.get? k = t'.get? k) (k : String) :
    (Union s t).get? k = (Union s' t').get? k := by
  rw [get?_union s t hs ht, get?_union s' t' (keyConsistent_of_lookup s s' hs hss)
    (keyConsistent_of_lookup t t' ht htt), hss, htt]

theorem difference_of_lookup (s s' t t' : threadUnsafeSet T) (hs : KeyConsistent s)
    (hss : ∀ k, s.get? k = s'.get? k) (htt : ∀ k, t.get? k = t'.get? k) (k : String) :
    (Difference s t).get? k = (Difference s' t').get? k := by
  rw [get?_difference s t hs, get?_difference s' t' (keyConsistent_of_lookup s s' hs hss), hss]
  simp only [contains_of_lookup t t' htt]

theorem intersect_of_lookup (s s' t t' : threadUnsafeSet T) (hs : KeyConsistent s)
    (ht : KeyConsistent t) (hss : ∀ k, s.get? k = s'.get? k)
    (htt : ∀ k, t.get? k = t'.get? k) (k : String) :
    (Intersect s t).get? k = (Intersect s' t').get? k := by
  have hs' := keyConsistent_of_lookup s s' hs hss
  have ht' := keyConsistent_of_lookup t t' ht htt
  have hcs := card_of_lookup s s' hss
  have hct := card_of_lookup t t' htt
  by_cases h : Cardinality s < Cardinality t
  · rw [get?_intersect_lt s t hs h, get?_intersect_lt s' t' hs' (by omega), hss]
    simp only [contains_of_lookup t t' htt]
  · rw [get?_intersect_ge s t ht h, get?_intersect_ge s' t' ht' (by omega), htt]
    simp only [contains_of_lookup s s' hss]

theorem symmetricDifference_of_lookup (s s' t t' : threadUnsafeSet T) (hs : KeyConsistent s)
    (ht : KeyConsistent t) (hss : ∀ k, s.get? k = s'.get? k)
    (htt : ∀ k, t.get? k = t'.get? k) (k : String) :
    (SymmetricDifference s t).get? k = (SymmetricDifference s' t').get? k := by
  rw [get?_symmetricDifference s t hs ht, get?_symmetricDifference s' t'
    (keyConsistent_of_lookup s s' hs hss) (keyConsistent_of_lookup t t' ht htt), hss, htt]

/-- C28: for sets that store every element under its key, the sets returned by
`Clone`, `Union`, `Intersect`, `Difference` and `SymmetricDifference` hold the
same element under every key, and `Equal`, `IsSubset`, `IsSuperset`,
`IsProperSubset` and `IsProperSuperset` return the same boolean, whatever the
order in which the entries of `s` and of `t` are enumerated; the same holds for
`SymmetricDifference` whatever the order in which its two intermediate
differences are enumerated. -/
theorem C28_order_independent (s s' t t' : threadUnsafeSet T) (hs : KeyConsistent s)
    (ht : KeyConsistent t) (hps : s.entries.Perm s'.entries)
    (hpt : t.entries.Perm t'.entries) :
    (∀ k, (Clone s).get? k = (Clone s').get? k) ∧
    (∀ k, (Union s t).get? k = (Union s' t').get? k) ∧
    (∀ k, (Intersect s t).get? k = (Intersect s' t').get? k) ∧
    (∀ k, (Difference s t).get? k = (Difference s' t').get? k) ∧
    (∀ k, (SymmetricDifference s t).get? k = (SymmetricDifference s' t').get? k) ∧
    (∀ a b : threadUnsafeSet T, a.entries.Perm (Difference s' t').entries →
      b.entries.Perm (Difference t' s').entries →
      ∀ k, (Union a b).get? k = (SymmetricDifference s t).get? k) ∧
    Equal s t = Equal s' t' ∧
    IsSubset s t = IsSubset s' t' ∧
    IsSuperset s t = IsSuperset s' t' ∧
    IsProperSubset s t = IsProperSubset s' t' ∧
    IsProperSuperset s t = IsProperSuperset s' t' := by
  have hss := get?_of_perm s s' hps
  have htt := get?_of_perm t t' hpt
  have hs' := keyConsistent_of_lookup s s' hs hss
  have ht' := keyConsistent_of_lookup t t' ht htt
  refine ⟨clone_of_lookup s s' hs hss, union_of_lookup s s' t t' hs ht hss htt,
    intersect_of_lookup s s' t t' hs ht hss htt, difference_of_lookup s s' t t' hs hss htt,
    symmetricDifference_of_lookup s s' t t' hs ht hss htt, ?_,
    equal_of_lookup s s' t t' hss htt, isSubset_of_lookup s s' t t' hss htt,
    isSubset_of_lookup t t' s s' htt hss, ?_, ?_⟩
  · intro a b hpa hpb k
    have ha := get?_of_perm _ _ hpa
    have hb := get?_of_perm _ _ hpb
    have hka : KeyConsistent a :=
      keyConsistent_of_perm _ a (keyConsistent_difference s' t') hpa.symm
    have hkb : KeyConsistent b :=
      keyConsistent_of_perm _ b (keyConsistent_difference t' s') hpb.symm
    rw [symmetricDifference_of_lookup s s' t t' hs ht hss htt]
    exact union_of_lookup a _ b _ hka hkb ha hb k
  · simp only [IsProperSubset, isSubset_of_lookup s s' t t' hss htt,
      equal_of_lookup s s' t t' hss htt]
  · simp only [IsProperSuperset, IsSuperset, isSubset_of_lookup t t' s s' htt hss,
      equal_of_lookup s s' t t' hss htt]

end

/-- C28, witness: the set holding `"1"` and `"test"` in its two enumeration
orders, against the set holding `"test"`. -/
theorem C28_witness :
    KeyConsistent sampleStrings ∧ KeyConsistent sampleString ∧
    sampleStrings.entries.Perm sampleStringsSwapped.entries ∧
    sampleStrings.entries ≠ sampleStringsSwapped.entries ∧
    (∀ k, (Difference sampleStrings sampleString).get? k =
      (Difference sampleStringsSwapped sampleString).get? k) ∧
    Equal sampleStrings sampleString = Equal sampleStringsSwapped sampleString :=
  ⟨by decide, by decide, by decide, by decide,
    (C28_order_independent sampleStrings sampleStringsSwapped sampleString sampleString
      (by decide) (by decide) (by decide) (List.Perm.refl _)).2.2.2.1,
    (C28_order_independent sampleStrings sampleStringsSwapped sampleString sampleString
      (by decide) (by decide) (by decide) (List.Perm.refl _)).2.2.2.2.2.2.1⟩

end threadUnsafeSet

/-! ## Results that share no storage with their operands -/

namespace Mem

section

variable {T : Type}

theorem Fresh.live {h h' : Mem T} {r : Nat} (hf : Fresh h h' r) (p : Nat) (hp : h.Live p) :
    h'.Live p := by
  obtain ⟨hframe, _, _, _, hc, ht⟩ := hf
  have := (hframe p hp).1
  constructor
  · exact Nat.lt_of_lt_of_le hp.1 hc
  · rw [this]; exact Nat.lt_of_lt_of_le hp.2 ht

theorem Fresh.trans {h h1 h2 : Mem T} {a r : Nat} (h01 : Fresh h h1 a) (h12 : Fresh h1 h2 r) :
    Fresh h h2 r := by
  have hl := fun p hp => Fresh.live h01 p hp
  obtain ⟨hframe1, _, _, _, hc1, ht1⟩ := h01
  obtain ⟨hframe2, hlive, hr, hcellr, hc2, ht2⟩ := h12
  refine ⟨?_, hlive, Nat.le_trans hc1 hr, Nat.le_trans ht1 hcellr, Nat.le_trans hc1 hc2,
    Nat.le_trans ht1 ht2⟩
  intro p hp
  obtain ⟨e1, e2⟩ := hframe1 p hp
  obtain ⟨e3, e4⟩ := hframe2 p (hl p hp)
  exact ⟨e3.trans e1, e4.trans e2⟩

theorem Fresh.apart {h h' : Mem T} {r : Nat} (hf : Fresh h h' r) (p : Nat) (hp : h.Live p) :
    Apart h' p r := by
  have hl := Fresh.live hf p hp
  obtain ⟨hframe, hlive, hr, hcellr, _, _⟩ := hf
  refine ⟨hl, hlive, ?_, ?_⟩
  · exact Nat.ne_of_lt (Nat.lt_of_lt_of_le hp.1 hr)
  · rw [(hframe p hp).1]
    exact Nat.ne_of_lt (Nat.lt_of_lt_of_le hp.2 hcellr)

theorem fresh_newSet_write (h : Mem T) (X : GoMap T) :
    Fresh h (h.newSet.1.write h.cellTop X) h.cellTop ∧
      (h.newSet.1.write h.cellTop X).load h.cellTop = X := by
  refine ⟨⟨?_, ⟨?_, ?_⟩, Nat.le_refl _, ?_, ?_, ?_⟩, load_write_same _ _ _⟩
  · intro p hp
    have hs : p ≠ h.cellTop := Nat.ne_of_lt hp.1
    have ht : h.cell p ≠ h.tableTop := Nat.ne_of_lt hp.2
    constructor
    · simp [write, newSet, Function.update_noteq hs]
    · simp [load, write, newSet, Function.update_noteq hs, Function.update_noteq ht]
  · simp only [write, newSet]; omega
  · simp only [write, newSet, Function.update_same]; omega
  · simp only [write, newSet, Function.update_same]; omega
  · simp only [write, newSet]; omega
  · simp only [write, newSet]; omega

theorem load_newSet (h : Mem T) (p : Nat) (hp : h.Live p) : h.newSet.1.load p = h.load p := by
  have hs : p ≠ h.cellTop := Nat.ne_of_lt hp.1
  simp [load, newSet, Function.update_noteq hs, Function.update_noteq (Nat.ne_of_lt hp.2)]

theorem load_newSet_new (h : Mem T) : h.newSet.1.load h.cellTop = GoMap.make := by
  simp [load, newSet]

theorem cell_newSet_ne (h : Mem T) (p : Nat) (hp : h.Live p) :
    h.newSet.1.cell p ≠ h.newSet.1.cell h.cellTop := by
  have hs : p ≠ h.cellTop := Nat.ne_of_lt hp.1
  simp only [newSet, Function.update_noteq hs, Function.update_same]
  exact Nat.ne_of_lt hp.2

end

section

variable {T : Type} [EqualKeyer T]

/-- A loop that adds to the set at `d` under a condition read from the set at
`o`, whose table is not the table of `d`: only the table of `d` changes, and it
ends as the loop on the maps leaves it. -/
theorem foldl_add_if_eq_write (c : threadUnsafeSet T → T → Bool) (l : List (String × T))
    (h : Mem T) (d o : Nat) (hne : h.cell o ≠ h.cell d) :
    l.foldl (fun m p => if c (m.load o) p.2 = true then (Add m d p.2).1 else m) h =
      h.write d (l.foldl
        (fun a p => if c (h.load o) p.2 = true then (threadUnsafeSet.Add a p.2).1 else a)
        (h.load d)) := by
  induction l generalizing h with
  | nil => simp [write_load]
  | cons p l ih =>
    rw [List.foldl_cons, List.foldl_cons]
    by_cases hc : c (h.load o) p.2 = true
    · rw [if_pos hc, if_pos hc]
      have hcell : (Add h d p.2).1.cell = h.cell := rfl
      rw [ih (Add h d p.2).1 (by rw [hcell]; exact hne)]
      have hlo : (Add h d p.2).1.load o = h.load o := load_write_other h d o _ hne
      have hld : (Add h d p.2).1.load d = (threadUnsafeSet.Add (h.load d) p.2).1 :=
        load_write_same h d _
      rw [hlo, hld]
      exact write_write h d _ _
    · rw [if_neg hc, if_neg hc]
      exact ih h hne

theorem difference_eq (h : Mem T) (s t : Nat) (hs : h.Live s) (ht : h.Live t) :
    Difference h s t =
      (h.newSet.1.write h.cellTop (threadUnsafeSet.Difference (h.load s) (h.load t)),
        h.cellTop) := by
  have key := foldl_add_if_eq_write (fun om e => !threadUnsafeSet.Contains om [e])
    (h.newSet.1.load s).entries h.newSet.1 h.cellTop t (cell_newSet_ne h t ht)
  simp only [Difference]
  rw [show h.newSet.2 = h.cellTop from rfl]
  refine Prod.ext ?_ rfl
  simp only
  rw [key, load_newSet h s hs, load_newSet h t ht, load_newSet_new]
  rfl

theorem intersect_eq (h : Mem T) (s t : Nat) (hs : h.Live s) (ht : h.Live t) :
    Intersect h s t =
      (h.newSet.1.write h.cellTop (threadUnsafeSet.Intersect (h.load s) (h.load t)),
        h.cellTop) := by
  have key1 := foldl_add_if_eq_write (fun om e => threadUnsafeSet.Contains om [e])
    (h.newSet.1.load s).entries h.newSet.1 h.cellTop t (cell_newSet_ne h t ht)
  have key2 := foldl_add_if_eq_write (fun om e => threadUnsafeSet.Contains om [e])
    (h.newSet.1.load t).entries h.newSet.1 h.cellTop s (cell_newSet_ne h s hs)
  simp only [Intersect]
  rw [show h.newSet.2 = h.cellTop from rfl, load_newSet h s hs, load_newSet h t ht]
  simp only [load_newSet h s hs, load_newSet h t ht] at key1 key2
  by_cases hlt : threadUnsafeSet.Cardinality (h.load s) < threadUnsafeSet.Cardinality (h.load t)
  · rw [if_pos hlt]
    refine Prod.ext ?_ rfl
    simp only
    rw [key1, load_newSet_new]
    simp only [threadUnsafeSet.Intersect, if_pos hlt]
    rfl
  · rw [if_neg hlt]
    refine Prod.ext ?_ rfl
    simp only
    rw [key2, load_newSet_new]
    simp only [threadUnsafeSet.Intersect, if_neg hlt]
    rfl

theorem union_eq (h : Mem T) (s t : Nat) (hs : h.Live s) (ht : h.Live t) :
    Union h s t =
      (h.newSet.1.write h.cellTop (threadUnsafeSet.Union (h.load s) (h.load t)),
        h.cellTop) := by
  have h1 : (h.load s).entries.foldl (fun m p => (Add m h.cellTop p.2).1) h.newSet.1 =
      h.newSet.1.write h.cellTop
        ((h.load s).entries.foldl (fun a p => (threadUnsafeSet.Add a p.2).1) GoMap.make) := by
    rw [foldl_add_eq_write, load_newSet_new]
  have hlt : (h.newSet.1.write h.cellTop
      ((h.load s).entries.foldl (fun a p => (threadUnsafeSet.Add a p.2).1) GoMap.make)).load t =
      h.load t := by
    rw [load_write_other _ _ _ _ (cell_newSet_ne h t ht), load_newSet h t ht]
  simp only [Union]
  rw [show h.newSet.2 = h.cellTop from rfl]
  refine Prod.ext ?_ rfl
  simp only
  rw [load_newSet h s hs, h1, hlt, foldl_add_eq_write, load_write_same, write_write]
  rfl

theorem fresh_difference (h : Mem T) (s t : Nat) (hs : h.Live s) (ht : h.Live t) :
    Fresh h (Difference h s t).1 (Difference h s t).2 ∧
      (Difference h s t).1.load (Difference h s t).2 =
        threadUnsafeSet.Difference (h.load s) (h.load t) := by
  rw [difference_eq h s t hs ht]
  exact fresh_newSet_write h _

theorem fresh_intersect (h : Mem T) (s t : Nat) (hs : h.Live s) (ht : h.Live t) :
    Fresh h (Intersect h s t).1 (Intersect h s t).2 ∧
      (Intersect h s t).1.load (Intersect h s t).2 =
        threadUnsafeSet.Intersect (h.load s) (h.load t) := by
  rw [intersect_eq h s t hs ht]
  exact fresh_newSet_write h _

theorem fresh_union (h : Mem T) (s t : Nat) (hs : h.Live s) (ht : h.Live t) :
    Fresh h (Union h s t).1 (Union h s t).2 ∧
      (Union h s t).1.load (Union h s t).2 =
        threadUnsafeSet.Union (h.load s) (h.load t) := by
  rw [union_eq h s t hs ht]
  exact fresh_newSet_write h _

theorem fresh_symmetricDifference (h : Mem T) (s t : Nat) (hs : h.Live s) (ht : h.Live t) :
    Fresh h (SymmetricDifference h s t).1 (SymmetricDifference h s t).2 ∧
      (SymmetricDifference h s t).1.load (SymmetricDifference h s t).2 =
        threadUnsafeSet.SymmetricDifference (h.load s) (h.load t) := by
  obtain ⟨fa, la⟩ := fresh_difference h s t hs ht
  have hs1 := Fresh.live fa s hs
  have ht1 := Fresh.live fa t ht
  obtain ⟨fb, lb⟩ := fresh_difference (Difference h s t).1 t s ht1 hs1
  have ha2 := Fresh.live fb _ fa.2.1
  have hb2 := fb.2.1
  obtain ⟨fu, lu⟩ := fresh_union (Difference (Difference h s t).1 t s).1
    (Difference h s t).2 (Difference (Difference h s t).1 t s).2 ha2 hb2
  refine ⟨Fresh.trans fa (Fresh.trans fb fu), ?_⟩
  show (Union _ _ _).1.load (Union _ _ _).2 = _
  rw [lu, lb, (fb.1 _ fa.2.1).2, la, (fa.1 s hs).2, (fa.1 t ht).2]
  rfl

theorem fresh_binary (op : SetOp) (h : Mem T) (s t : Nat) (hs : h.Live s) (ht : h.Live t) :
    Fresh h (binary op h s t).1 (binary op h s t).2 ∧
      (binary op h s t).1.load (binary op h s t).2 =
        threadUnsafeSet.binary op (h.load s) (h.load t) := by
  cases op
  · exact fresh_union h s t hs ht
  · exact fresh_intersect h s t hs ht
  · exact fresh_difference h s t hs ht
  · exact fresh_symmetricDifference h s t hs ht

end

end Mem

/-- C22: `Union`, `Intersect`, `Difference` and `SymmetricDifference` leave both
operands with exactly the entries they held, and return a new set, the one the
method computes from the two maps, that shares no storage with them: any
sequence of `Add`, `Remove`, `Pop` and `Clear` on the result changes neither
operand, and on an operand does not change the result. -/
theorem C22_binary_ops_independent {T : Type} [EqualKeyer T] (op : SetOp) (h : Mem T)
    (s t : Nat) (hs : h.Live s) (ht : h.Live t) :
    (Mem.binary op h s t).1.load s = h.load s ∧
    (Mem.binary op h s t).1.load t = h.load t ∧
    (Mem.binary op h s t).1.load (Mem.binary op h s t).2 =
      threadUnsafeSet.binary op (h.load s) (h.load t) ∧
    (Mem.binary op h s t).2 ≠ s ∧ (Mem.binary op h s t).2 ≠ t ∧
    (∀ μs : List (Mutation T),
      (Mem.mutateAll (Mem.binary op h s t).1 (Mem.binary op h s t).2 μs).load s = h.load s ∧
      (Mem.mutateAll (Mem.binary op h s t).1 (Mem.binary op h s t).2 μs).load t = h.load t) ∧
    (∀ μs : List (Mutation T),
      (Mem.mutateAll (Mem.binary op h s t).1 s μs).load (Mem.binary op h s t).2 =
        (Mem.binary op h s t).1.load (Mem.binary op h s t).2) ∧
    (∀ μs : List (Mutation T),
      (Mem.mutateAll (Mem.binary op h s t).1 t μs).load (Mem.binary op h s t).2 =
        (Mem.binary op h s t).1.load (Mem.binary op h s t).2) := by
  obtain ⟨hf, hload⟩ := Mem.fresh_binary op h s t hs ht
  have has := Mem.Fresh.apart hf s hs
  have hat := Mem.Fresh.apart hf t ht
  refine ⟨(hf.1 s hs).2, (hf.1 t ht).2, hload, Ne.symm has.2.2.1, Ne.symm hat.2.2.1, ?_,
    fun μs => Mem.mutateAll_apart _ _ _ has μs, fun μs => Mem.mutateAll_apart _ _ _ hat μs⟩
  intro μs
  constructor
  · rw [Mem.mutateAll_apart _ _ _ (Mem.apart_symm _ _ _ has) μs]
    exact (hf.1 s hs).2
  · rw [Mem.mutateAll_apart _ _ _ (Mem.apart_symm _ _ _ hat) μs]
    exact (hf.1 t ht).2

/-- C22, witness: the symmetric difference of the two sets of the sample
memory. -/
theorem C22_witness :
    sampleMemTwo.Live 0 ∧ sampleMemTwo.Live 1 ∧
    (Mem.binary .symmetricDifference sampleMemTwo 0 1).1.load 0 = sampleMemTwo.load 0 ∧
    (Mem.binary .symmetricDifference sampleMemTwo 0 1).1.load 1 = sampleMemTwo.load 1 ∧
    (Mem.binary .symmetricDifference sampleMemTwo 0 1).1.load
      (Mem.binary .symmetricDifference sampleMemTwo 0 1).2 =
        threadUnsafeSet.SymmetricDifference sampleStrings sampleString :=
  ⟨by decide, by decide,
    (C22_binary_ops_independent .symmetricDifference sampleMemTwo 0 1 (by decide)
      (by decide)).1,
    (C22_binary_ops_independent .symmetricDifference sampleMemTwo 0 1 (by decide)
      (by decide)).2.1,
    (C22_binary_ops_independent .symmetricDifference sampleMemTwo 0 1 (by decide)
      (by decide)).2.2.1⟩

/-! ## MarshalJSON and the round trip -/

namespace threadUnsafeSet

section

variable {T : Type} [EqualKeyer T]

end

end threadUnsafeSet

/-! ## Iter -/

namespace threadUnsafeSet

theorem iterRun_open {T : Type} (fuel : Nat) (pending received : List T) :
    iterRun fuel ⟨pending, false, received⟩ =
      if fuel ≤ pending.length then
        ⟨pending.drop fuel, false, received ++ pending.take fuel⟩
      else ⟨[], true, received ++ pending⟩ := by
  induction fuel generalizing pending received with
  | zero => simp [iterRun]
  | succ n ih =>
    cases pending with
    | nil =>
      simp only [iterRun, iterStep, Bool.false_eq_true, if_false, List.length_nil,
        Nat.le_zero_eq, Nat.succ_ne_zero, List.append_nil]
      cases n with
      | zero => simp [iterRun]
      | succ m => simp [iterRun, iterStep]
    | cons e rest =>
      simp only [iterRun, iterStep, Bool.false_eq_true, if_false]
      rw [ih]
      simp only [List.length_cons, Nat.add_le_add_iff_right, List.drop_succ_cons,
        List.take_succ_cons, List.append_assoc, List.singleton_append]

section

variable {T : Type} [EqualKeyer T]

/-- C23: the goroutine of `Iter`, against a consumer that drains the channel
with no mutation in between, hands over the stored elements in enumeration
order, each entry once; the channel is not closed before the last of them is
received, and after `Cardinality` sends and one more step it is closed with
exactly the stored elements received and nothing left to send. -/
theorem C23_iter_delivers_all (s : threadUnsafeSet T) :
    (∀ n, n ≤ Cardinality s →
      (iterRun n (Iter s)).closed = false ∧
      (iterRun n (Iter s)).received = (elems s).take n) ∧
    (∀ extra,
      (iterRun (Cardinality s + 1 + extra) (Iter s)).closed = true ∧
      (iterRun (Cardinality s + 1 + extra) (Iter s)).received = elems s ∧
      (iterRun (Cardinality s + 1 + extra) (Iter s)).received.length = Cardinality s ∧
      (iterRun (Cardinality s + 1 + extra) (Iter s)).pending = [] ∧
      iterStep (iterRun (Cardinality s + 1 + extra) (Iter s)) = none) ∧
    (KeyConsistent s → (elems s).Nodup) := by
  have hlen : (elems s).length = Cardinality s := by simp [elems, Cardinality, GoMap.len]
  refine ⟨?_, ?_, nodup_elems s⟩
  · intro n hn
    rw [Iter, iterRun_open, if_pos (by omega)]
    simp
  · intro extra
    rw [Iter, iterRun_open, if_neg (by omega)]
    simp [hlen, iterStep]

end

/-- C23, witness: draining `Iter` of the set holding `"1"` and `"test"`. -/
theorem C23_witness :
    (iterRun 3 (Iter sampleStrings)).received = elems sampleStrings ∧
    (iterRun 3 (Iter sampleStrings)).closed = true :=
  ⟨((C23_iter_delivers_all sampleStrings).2.1 0).2.1,
    ((C23_iter_delivers_all sampleStrings).2.1 0).1⟩

end threadUnsafeSet

/-! ## Iterator -/

namespace threadUnsafeSet

theorem iteratorRun_closed {T : Type} (target : T → Bool) (sched : Nat → Bool) (fuel i : Nat)
    (st : IteratorState T) (h : st.closed = true) :
    iteratorRun target sched fuel i st = st := by
  cases fuel with
  | zero => rfl
  | succ n => simp [iteratorRun, iteratorStep, h]

/-- A run of the goroutine of `Iterator` from an open state, with enough
steps: it ends closed, the consumer has received an initial segment of the
pending elements, and the goroutine stopped early only after the stop
signal. -/
theorem iteratorRun_open {T : Type} (target : T → Bool) (sched : Nat → Bool)
    (pending : List T) :
    ∀ (fuel i : Nat) (stopped : Bool) (received : List T), pending.length + 1 ≤ fuel →
      ∃ m, m ≤ pending.length ∧
        iteratorRun target sched fuel i ⟨pending, stopped, false, received⟩ =
          ⟨pending.drop m, stopped || (pending.take m).any target, true,
            received ++ pending.take m⟩ ∧
        (m < pending.length → (stopped || (pending.take m).any target) = true) := by
  induction pending with
  | nil =>
    intro fuel i stopped received hfuel
    refine ⟨0, Nat.le_refl _, ?_, fun h => absurd h (Nat.lt_irrefl _)⟩
    obtain ⟨n, rfl⟩ : ∃ n, fuel = n + 1 := ⟨fuel - 1, by simp at hfuel; omega⟩
    simp only [iteratorRun, iteratorStep, Bool.false_eq_true, if_false]
    rw [iteratorRun_closed _ _ _ _ _ rfl]
    simp
  | cons e rest ih =>
    intro fuel i stopped received hfuel
    obtain ⟨n, rfl⟩ : ∃ n, fuel = n + 1 := ⟨fuel - 1, by simp at hfuel; omega⟩
    have hn : rest.length + 1 ≤ n := by simp at hfuel; omega
    by_cases hstop : (stopped && sched i) = true
    · refine ⟨0, Nat.zero_le _, ?_, fun _ => ?_⟩
      · simp only [iteratorRun, iteratorStep, Bool.false_eq_true, if_false, hstop, if_true]
        rw [iteratorRun_closed _ _ _ _ _ rfl]
        simp
      · simp only [Bool.and_eq_true] at hstop
        simp [hstop.1]
    · obtain ⟨m, hm, hrun, hlt⟩ := ih n (i + 1) (stopped || target e) (received ++ [e]) hn
      refine ⟨m + 1, by simp; omega, ?_, ?_⟩
      · simp only [iteratorRun, iteratorStep, Bool.false_eq_true, if_false, hstop]
        have hstep : (if target e = true then
            IteratorState.Stop (T := T) ⟨rest, stopped, false, received ++ [e]⟩
            else ⟨rest, stopped, false, received ++ [e]⟩) =
            ⟨rest, stopped || target e, false, received ++ [e]⟩ := by
          cases ht : target e <;> simp [IteratorState.Stop]
        rw [hstep, hrun]
        simp [Bool.or_assoc]
      · intro hlt'
        have := hlt (by simpa using hlt')
        simpa [Bool.or_assoc] using this

section

variable {T : Type} [EqualKeyer T]

/-- C24: against a consumer that calls `Stop()` when it receives an element
satisfying `target`, whatever `select` chooses at each step, the goroutine of
`Iterator` closes the channel within `Cardinality + 1` steps; the consumer has
then received an initial segment of one enumeration of the stored elements,
each entry at most once; when the set stores an element satisfying `target`
the consumer has received such an element and the stop signal has been given,
and when `x` is the only stored element satisfying `target` the consumer has
received `x`. -/
theorem C24_iterator_stop (s : threadUnsafeSet T) (target : T → Bool) (sched : Nat → Bool)
    (extra : Nat) :
    (iteratorRun target sched (Cardinality s + 1 + extra) 0 (Iterator s)).closed = true ∧
    iteratorStep target (sched (Cardinality s + 1 + extra))
      (iteratorRun target sched (Cardinality s + 1 + extra) 0 (Iterator s)) = none ∧
    (∃ m, m ≤ Cardinality s ∧
      (iteratorRun target sched (Cardinality s + 1 + extra) 0 (Iterator s)).received =
        (elems s).take m) ∧
    (KeyConsistent s →
      (iteratorRun target sched (Cardinality s + 1 + extra) 0 (Iterator s)).received.Nodup) ∧
    (∀ x ∈ elems s, target x = true →
      (∃ y ∈ (iteratorRun target sched (Cardinality s + 1 + extra) 0 (Iterator s)).received,
        target y = true) ∧
      (iteratorRun target sched (Cardinality s + 1 + extra) 0 (Iterator s)).stopped = true ∧
      ((∀ y ∈ elems s, target y = true → y = x) →
        x ∈ (iteratorRun target sched (Cardinality s + 1 + extra) 0 (Iterator s)).received)) := by
  have hlen : (elems s).length = Cardinality s := by simp [elems, Cardinality, GoMap.len]
  obtain ⟨m, hm, hrun, hlt⟩ := iteratorRun_open target sched (elems s)
    (Cardinality s + 1 + extra) 0 false [] (by omega)
  rw [Iterator, hrun]
  have hany : ∀ x ∈ elems s, target x = true → ((elems s).take m).any target = true := by
    intro x hx htx
    by_cases hml : m < (elems s).length
    · simpa using hlt hml
    · rw [List.take_of_length_le (by omega)]
      exact List.any_eq_true.mpr ⟨x, hx, htx⟩
  refine ⟨rfl, by simp [iteratorStep], ⟨m, by omega, by simp⟩, ?_, ?_⟩
  · intro hs
    simp only [List.nil_append]
    exact (nodup_elems s hs).sublist (List.take_sublist _ _)
  · intro x hx htx
    have h := hany x hx htx
    obtain ⟨y, hy, hty⟩ := List.any_eq_true.mp h
    refine ⟨⟨y, by simpa using hy, hty⟩, by simpa using h, ?_⟩
    intro huniq
    have : y = x := huniq y (List.mem_of_mem_take hy) hty
    subst this
    simpa using hy

end

/-- C24, witness: the set holding `"1"` and `"test"`, a consumer that stops at
`"test"`, and a `select` that takes the stop case whenever it is ready. -/
theorem C24_witness :
    (⟨"test"⟩ : GoString) ∈ elems sampleStrings ∧
    (⟨"test"⟩ : GoString) ∈
      (iteratorRun (fun e => decide (e = (⟨"test"⟩ : GoString))) (fun _ => true)
        (Cardinality sampleStrings + 1 + 0) 0 (Iterator sampleStrings)).received :=
  ⟨by decide,
    ((C24_iterator_stop sampleStrings (fun e => decide (e = (⟨"test"⟩ : GoString)))
      (fun _ => true) 0).2.2.2.2 ⟨"test"⟩ (by decide) (by decide)).2.2
      (fun y _ hy => by simpa using hy)⟩

end threadUnsafeSet

/-! ## Concurrent Add on the guarded set -/

namespace threadUnsafeSet

section

variable {T : Type} [EqualKeyer T]

theorem mem_keys_add (s : threadUnsafeSet T) (v : T) (k : String) :
    k ∈ GoMap.keys (Add s v).1 ↔ k = EqualKeyer.Key v ∨ k ∈ GoMap.keys s := by
  rw [← GoMap.get?_isSome_iff, ← GoMap.get?_isSome_iff, add_fst]
  by_cases hk : k = EqualKeyer.Key v
  · subst hk
    simp [GoMap.get?_set_self]
  · rw [GoMap.get?_set_ne s _ k v hk]
    simp [hk]

theorem card_foldl_add_values (i : List T) (s : threadUnsafeSet T)
    (hnodup : (i.map EqualKeyer.Key).Nodup)
    (hnew : ∀ v ∈ i, EqualKeyer.Key v ∉ GoMap.keys s) :
    Cardinality (i.foldl (fun s v => (Add s v).1) s) = Cardinality s + i.length := by
  induction i generalizing s with
  | nil => rfl
  | cons v i ih =>
    rw [List.map_cons, List.nodup_cons] at hnodup
    rw [List.foldl_cons, ih (Add s v).1 hnodup.2]
    · have hlen := GoMap.len_set s (EqualKeyer.Key v) v
      rw [if_neg (hnew v (List.mem_cons_self _ _))] at hlen
      simp only [Cardinality, add_fst, List.length_cons]
      omega
    · intro w hw hin
      rcases (mem_keys_add s v _).mp hin with h | h
      · exact hnodup.1 (by rw [← h]; exact List.mem_map.mpr ⟨w, hw, rfl⟩)
      · exact hnew w (List.mem_cons_of_mem _ hw) h

theorem find?_reverse_of_nodup (i : List T) (hnodup : (i.map EqualKeyer.Key).Nodup) (v : T)
    (hv : v ∈ i) :
    i.reverse.find? (fun w => EqualKeyer.Key w == EqualKeyer.Key v) = some v := by
  have hv' : v ∈ i.reverse := List.mem_reverse.mpr hv
  cases hfind : i.reverse.find? (fun w => EqualKeyer.Key w == EqualKeyer.Key v) with
  | none =>
    have := List.find?_eq_none.mp hfind v hv'
    simp at this
  | some w =>
    have hw : w ∈ i := List.mem_reverse.mp (List.mem_of_find?_eq_some hfind)
    have hkey : EqualKeyer.Key w = EqualKeyer.Key v := by
      simpa using List.find?_some hfind
    rw [List.inj_on_of_nodup_map hnodup hw hv hkey]

/-- C25, as amended: when `N` tasks each add one of `N` elements with pairwise
distinct keys to the same initially empty guarded set, then in whatever order
the calls take effect the cardinality is `N`, every one of the elements is
stored under its key, and `Contains` is true for exactly those of them that
are `Equal` to themselves. -/
theorem C25_concurrent_adds (vs order : List T) (hkeys : (vs.map EqualKeyer.Key).Nodup)
    (hperm : order.Perm vs) :
    Cardinality (concurrentAdds order) = vs.length ∧
    (∀ v ∈ vs, (concurrentAdds order).get? (EqualKeyer.Key v) = some v) ∧
    (∀ v ∈ vs, (Contains (concurrentAdds order) [v] = true ↔ EqualKeyer.Equal v v = true)) ∧
    ((∀ v ∈ vs, EqualKeyer.Equal v v = true) →
      ∀ v ∈ vs, Contains (concurrentAdds order) [v] = true) := by
  have hnodup : (order.map EqualKeyer.Key).Nodup :=
    (List.Perm.nodup_iff (hperm.map _)).mpr hkeys
  have hget : ∀ v ∈ vs, (concurrentAdds order).get? (EqualKeyer.Key v) = some v := by
    intro v hv
    rw [concurrentAdds, get?_foldl_add_values,
      find?_reverse_of_nodup order hnodup v (hperm.symm.subset hv)]
  have hcontains : ∀ v ∈ vs,
      (Contains (concurrentAdds order) [v] = true ↔ EqualKeyer.Equal v v = true) := by
    intro v hv
    rw [contains_single_eq, hget v hv]
  refine ⟨?_, hget, hcontains, fun hrefl v hv => (hcontains v hv).mpr (hrefl v hv)⟩
  rw [concurrentAdds, card_foldl_add_values order _ hnodup (fun v _ h => by cases h)]
  simp [Cardinality, newThreadUnsafeSet, GoMap.make, GoMap.len, hperm.length_eq]

end

/-- C25 fails as stated: after two tasks have added two `*yourType` elements with
distinct keys, in either order, the cardinality is 2 and `Contains` is false
for both elements. -/
theorem C25_counterexample :
    (sampleBobAlise.map EqualKeyer.Key).Nodup ∧
    Cardinality (concurrentAdds sampleBobAlise) = 2 ∧
    Contains (concurrentAdds sampleBobAlise) [⟨1, "Bob"⟩] = false ∧
    Contains (concurrentAdds sampleBobAlise) [⟨2, "Alise"⟩] = false ∧
    Contains (concurrentAdds sampleBobAlise.reverse) [⟨1, "Bob"⟩] = false ∧
    Contains (concurrentAdds sampleBobAlise.reverse) [⟨2, "Alise"⟩] = false := by
  decide

/-- C25, witness: two tasks add `"1"` and `"test"`; the calls take effect in the
reverse order. -/
theorem C25_witness :
    (sampleTasks.map EqualKeyer.Key).Nodup ∧ sampleTasks.reverse.Perm sampleTasks ∧
    Cardinality (concurrentAdds sampleTasks.reverse) = 2 ∧
    ∀ v ∈ sampleTasks, Contains (concurrentAdds sampleTasks.reverse) [v] = true :=
  ⟨by decide, by decide,
    (C25_concurrent_adds sampleTasks sampleTasks.reverse (by decide) (by decide)).1,
    (C25_concurrent_adds sampleTasks sampleTasks.reverse (by decide) (by decide)).2.2.2
      (by decide)⟩

end threadUnsafeSet

end mapset
